import Mathlib

/-!
Verification of the auto-parts crawler's persistent work queue
(`src/db.py`), its offline repair tool (`src/repair.py`) and the URL
canonicalizer (`src/parse.py`).

The SQLite store is embedded shallowly: each table is a list of rows in
insertion (rowid) order, each mutating method of `DB` is a state→state
function, and `REAL` timestamp/price columns are modelled as `Rat` (only
equality, ordering and Python truthiness of `0` are ever used on them).
-/

namespace AutoParts

/-- `kind` column: `CHECK(kind IN ('catalog','category','product'))`. -/
inductive Kind
  | catalog
  | category
  | product
deriving DecidableEq, Repr

/-- `status` column: `CHECK(status IN ('pending','done','error'))`. -/
inductive Status
  | pending
  | done
  | error
deriving DecidableEq, Repr

/-- One row of the `queue` table (url TEXT PRIMARY KEY, kind, status,
tries INTEGER DEFAULT 0, last_error TEXT nullable, updated_at REAL). -/
structure QueueRow where
  url : String
  kind : Kind
  status : Status
  tries : Nat
  lastError : Option String
  updatedAt : Rat
deriving DecidableEq, Repr

/-- One row of the `locks` table (url TEXT PRIMARY KEY, ts REAL). -/
structure LockRow where
  url : String
  ts : Rat
deriving DecidableEq, Repr

/-- One row of the `categories` table. -/
structure CategoryRow where
  url : String
  name : String
  discoveredAt : Rat
deriving DecidableEq, Repr

/-- One row of the `product_discovery` table. -/
structure DiscoveryRow where
  url : String
  title : String
  categoryUrl : String
  discoveredAt : Rat
deriving DecidableEq, Repr

/-- One row of the `products` table.  Nullable columns are `Option`;
`attrs_json`/`fitment_json` hold the serialized payloads as written by
`json.dumps`. -/
structure ProductRow where
  url : String
  title : Option String
  price : Option Rat
  currency : Option String
  partNumber : Option String
  brand : Option String
  stock : Option Int
  prodId : Option String
  appId : Option String
  altSku : Option String
  categoryUrl : Option String
  attrsJson : Option String
  fitmentJson : Option String
  discoveredAt : Rat
  scrapedAt : Rat
deriving DecidableEq, Repr

/-- The whole SQLite database of `DB._init`: five tables, each a list of
rows in rowid order. -/
structure DBState where
  queue : List QueueRow
  locks : List LockRow
  categories : List CategoryRow
  productDiscovery : List DiscoveryRow
  products : List ProductRow
deriving DecidableEq, Repr

/-- `SELECT 1 FROM queue WHERE url=?` (row existence by primary key). -/
def hasQueueRow (s : DBState) (url : String) : Bool :=
  s.queue.any fun r => decide (r.url = url)

/-- `SELECT 1 FROM locks WHERE url=?`. -/
def lockExists (s : DBState) (url : String) : Bool :=
  s.locks.any fun l => decide (l.url = url)

/-- `SELECT 1 FROM products WHERE url=? LIMIT 1` (`DB.product_exists`). -/
def product_exists (s : DBState) (url : String) : Bool :=
  s.products.any fun r => decide (r.url = url)

/-- `DB.seed_catalog`: `INSERT OR IGNORE INTO queue(url, kind, status,
updated_at) VALUES(?, 'catalog', 'pending', ?)`. -/
def seed_catalog (s : DBState) (url : String) (ts : Rat) : DBState :=
  if hasQueueRow s url then s
  else { s with queue := s.queue ++ [⟨url, Kind.catalog, Status.pending, 0, none, ts⟩] }

/-- `DB.upsert_queue`: `INSERT OR IGNORE INTO queue(url, kind, status,
updated_at) VALUES(?, ?, 'pending', ?)`. -/
def upsert_queue (s : DBState) (url : String) (kind : Kind) (ts : Rat) : DBState :=
  if hasQueueRow s url then s
  else { s with queue := s.queue ++ [⟨url, kind, Status.pending, 0, none, ts⟩] }

/-- `DB.count_pending`: `SELECT COUNT(*) FROM queue WHERE status='pending'`. -/
def count_pending (s : DBState) : Nat :=
  (s.queue.filter fun r => decide (r.status = Status.pending)).length

/-- `DB.mark_done`: `UPDATE queue SET status='done', updated_at=? WHERE
url=?` then `DELETE FROM locks WHERE url=?`. -/
def mark_done (s : DBState) (url : String) (ts : Rat) : DBState :=
  { s with
    queue := s.queue.map fun r =>
      if r.url = url then { r with status := Status.done, updatedAt := ts } else r
    locks := s.locks.filter fun l => !(decide (l.url = url)) }

/-- Python `err[:1000]`: the first 1000 characters of the string. -/
def pyTake (s : String) (n : Nat) : String :=
  String.mk (s.toList.take n)

/-- `DB.mark_error`: `UPDATE queue SET status='error', tries=tries+1,
last_error=?, updated_at=? WHERE url=?` with the message passed as
`err[:1000]`, then `DELETE FROM locks WHERE url=?`. -/
def mark_error (s : DBState) (url : String) (err : String) (ts : Rat) : DBState :=
  { s with
    queue := s.queue.map fun r =>
      if r.url = url then
        { r with status := Status.error, tries := r.tries + 1,
                 lastError := some (pyTake err 1000), updatedAt := ts }
      else r
    locks := s.locks.filter fun l => !(decide (l.url = url)) }

/-- `ORDER BY CASE kind WHEN 'catalog' THEN 0 WHEN 'category' THEN 1 ELSE 2 END`. -/
def kindPriority : Kind → Nat
  | Kind.catalog => 0
  | Kind.category => 1
  | Kind.product => 2

/-- Strict comparison in the `ORDER BY (CASE kind ..., updated_at ASC)` key. -/
def rowLt (a b : QueueRow) : Bool :=
  decide (kindPriority a.kind < kindPriority b.kind) ||
    (decide (kindPriority a.kind = kindPriority b.kind) && decide (a.updatedAt < b.updatedAt))

/-- The rows eligible in `reserve_next`: `status='pending' AND url NOT IN
(SELECT url FROM locks)`. -/
def selectCandidates (s : DBState) : List QueueRow :=
  s.queue.filter fun r => decide (r.status = Status.pending) && !(lockExists s r.url)

/-- `LIMIT 1` under the `ORDER BY`: a row of the list minimal in
`(kindPriority, updatedAt)` (the scan keeps the first minimal row, which
also covers SQLite's unspecified order among ties). -/
def pickMin : List QueueRow → Option QueueRow
  | [] => none
  | r :: rs => some ((pickMin rs).elim r fun m => if rowLt m r then m else r)

/-- `INSERT OR IGNORE INTO locks(url, ts) VALUES(?, ?)`. -/
def insertLock (s : DBState) (url : String) (ts : Rat) : DBState :=
  if lockExists s url then s else { s with locks := s.locks ++ [⟨url, ts⟩] }

/-- `DB.reserve_next`: inside `BEGIN IMMEDIATE`, select the minimal
pending unlocked row; if none, return `None`; else insert its lock and
return `(url, kind)`.  The returned pair and the post-transaction state. -/
def reserve_next (s : DBState) (ts : Rat) : Option (String × Kind) × DBState :=
  match pickMin (selectCandidates s) with
  | none => (none, s)
  | some r => (some (r.url, r.kind), insertLock s r.url ts)

/-- `DB.insert_category`: `INSERT OR IGNORE INTO categories(...)`. -/
def insert_category (s : DBState) (url name : String) (ts : Rat) : DBState :=
  if s.categories.any (fun r => decide (r.url = url)) then s
  else { s with categories := s.categories ++ [⟨url, name, ts⟩] }

/-- `DB.insert_product_discovery`: `INSERT OR IGNORE INTO product_discovery(...)`. -/
def insert_product_discovery (s : DBState) (url title categoryUrl : String)
    (ts : Rat) : DBState :=
  if s.productDiscovery.any (fun r => decide (r.url = url)) then s
  else { s with productDiscovery := s.productDiscovery ++ [⟨url, title, categoryUrl, ts⟩] }

/-- One hex digit, lower case, as `json.dumps` writes `\uXXXX` escapes. -/
def hexDigit (n : Nat) : Char :=
  if n < 10 then Char.ofNat (48 + n) else Char.ofNat (97 + (n - 10))

/-- Four-digit hex rendering of a code point below 0x10000. -/
def hex4 (n : Nat) : List Char :=
  [hexDigit (n / 4096 % 16), hexDigit (n / 256 % 16), hexDigit (n / 16 % 16),
   hexDigit (n % 16)]

/-- `json.dumps` escaping of one character (`ensure_ascii=False`): quote,
backslash and the named control escapes, `\uXXXX` for other C0 controls,
everything else verbatim. -/
def jsonEscapeChar (c : Char) : List Char :=
  if c = '"' then ['\\', '"']
  else if c = '\\' then ['\\', '\\']
  else if c = '\n' then ['\\', 'n']
  else if c = '\t' then ['\\', 't']
  else if c = '\r' then ['\\', 'r']
  else if c = Char.ofNat 8 then ['\\', 'b']
  else if c = Char.ofNat 12 then ['\\', 'f']
  else if c.toNat < 32 then '\\' :: 'u' :: hex4 c.toNat
  else [c]

/-- A JSON string literal as `json.dumps(..., ensure_ascii=False)` writes it. -/
def jsonStr (s : String) : String :=
  String.mk ('"' :: (s.toList.flatMap jsonEscapeChar) ++ ['"'])

/-- `json.dumps(attrs or \x7b\x7d, ensure_ascii=False)` for the string→string
attribute map (Python dict iteration order = insertion order). -/
def attrsDump (attrs : List (String × String)) : String :=
  "\x7b" ++ String.intercalate ", "
      (attrs.map fun kv => jsonStr kv.1 ++ ": " ++ jsonStr kv.2) ++ "\x7d"

/-- `null` or a JSON string, for the nullable fitment cells. -/
def jsonOptStr : Option String → String
  | none => "null"
  | some s => jsonStr s

/-- `json.dumps(fitment or [], ensure_ascii=False)` for the fitment rows
(each a dict with keys vehicle, sub_model, engine). -/
def fitmentDump (rows : List (Option String × Option String × Option String)) : String :=
  "[" ++ String.intercalate ", "
      (rows.map fun t =>
        "\x7b\"vehicle\": " ++ jsonOptStr t.1 ++ ", \"sub_model\": " ++ jsonOptStr t.2.1 ++
          ", \"engine\": " ++ jsonOptStr t.2.2 ++ "\x7d") ++ "]"

/-- The `data` dict passed to `DB.upsert_product` (the keys it reads). -/
structure ProductData where
  url : String
  title : Option String
  price : Option Rat
  currency : Option String
  partNumber : Option String
  brand : Option String
  stock : Option Int
  prodId : Option String
  appId : Option String
  altSku : Option String
  categoryUrl : Option String
  attrs : List (String × String)
  fitment : List (Option String × Option String × Option String)
  discoveredAt : Option Rat
  scrapedAt : Option Rat
deriving DecidableEq, Repr

/-- Python `x or default` on an optional float: `None` and `0.0` are falsy. -/
def pyOr (x : Option Rat) (default : Rat) : Rat :=
  match x with
  | none => default
  | some v => if v = 0 then default else v

/-- The row `DB.upsert_product` would insert (the `VALUES` tuple):
`json.dumps` of the attrs/fitment payloads and `data.get(...) or
self._ts()` for the two timestamps. -/
def insertedProductRow (d : ProductData) (ts : Rat) : ProductRow :=
  { url := d.url, title := d.title, price := d.price, currency := d.currency,
    partNumber := d.partNumber, brand := d.brand, stock := d.stock,
    prodId := d.prodId, appId := d.appId, altSku := d.altSku,
    categoryUrl := d.categoryUrl,
    attrsJson := some (attrsDump d.attrs),
    fitmentJson := some (fitmentDump d.fitment),
    discoveredAt := pyOr d.discoveredAt ts,
    scrapedAt := pyOr d.scrapedAt ts }

/-- `DB.upsert_product`: `INSERT INTO products(...) VALUES (...) ON
CONFLICT(url) DO UPDATE SET` every non-key column to `excluded.*` except
`discovered_at`, which the update list omits (first-seen time is kept);
`scraped_at` is among the updated columns. -/
def upsert_product (s : DBState) (d : ProductData) (ts : Rat) : DBState :=
  if product_exists s d.url then
    { s with products := s.products.map fun r =>
        if r.url = d.url then { insertedProductRow d ts with discoveredAt := r.discoveredAt }
        else r }
  else
    { s with products := s.products ++ [insertedProductRow d ts] }

/-- SQLite `trim(X)`: spaces (only) removed from both ends. -/
def sqlTrim (s : String) : String :=
  String.mk (((s.toList.dropWhile fun c => c = ' ').reverse.dropWhile fun c => c = ' ').reverse)

/-- The repair tool's empty-result heuristic (`find_empty_products`'s
`WHERE` clause): title NULL/blank/a bare currency code, or price NULL
with blank part number, blank brand and an absent/empty attribute map.
SQL three-valued logic: a comparison with NULL is not true, `IFNULL`
turns NULL into `''`. -/
def isEmptyProduct (r : ProductRow) : Bool :=
  (match r.title with
   | none => true
   | some t => decide (sqlTrim t = "") || decide (t = "USD") || decide (t = "EUR")
       || decide (t = "GBP")) ||
  (decide (r.price = none)
    && decide (sqlTrim (r.partNumber.getD "") = "")
    && decide (sqlTrim (r.brand.getD "") = "")
    && (match r.attrsJson with
        | none => true
        | some a => decide (a = "") || decide (a = "\x7b\x7d")))

/-- `find_empty_products`: the urls of the products matching the heuristic. -/
def find_empty_products (s : DBState) : List String :=
  (s.products.filter isEmptyProduct).map fun r => r.url

/-- `delete_products`: `DELETE FROM products WHERE url = ?` for each url. -/
def delete_products (s : DBState) (urls : List String) : DBState :=
  { s with products := s.products.filter fun r => !(urls.contains r.url) }

/-- The row update of `ensure_queue_pending_for_products`'s `UPDATE ...
WHERE url=? AND status!='pending'` clause. -/
def ensureRowFn (u : String) (ts : Rat) (r : QueueRow) : QueueRow :=
  if decide (r.url = u) && !(decide (r.status = Status.pending)) then
    { r with status := Status.pending, tries := 0, lastError := none, updatedAt := ts }
  else r

/-- The body of `ensure_queue_pending_for_products` for one url:
`UPDATE queue SET status='pending', tries=0, last_error=NULL,
updated_at=? WHERE url=? AND status!='pending'`, then `INSERT OR IGNORE
INTO queue(url, kind, status, updated_at) VALUES(?, 'product',
'pending', ?)`, then `DELETE FROM locks WHERE url=?`. -/
def ensurePendingOne (s : DBState) (u : String) (ts : Rat) : DBState :=
  let q1 := s.queue.map (ensureRowFn u ts)
  { s with
    queue := if q1.any (fun r => decide (r.url = u)) then q1
             else q1 ++ [⟨u, Kind.product, Status.pending, 0, none, ts⟩]
    locks := s.locks.filter fun l => !(decide (l.url = u)) }

/-- `ensure_queue_pending_for_products`: the one-url body for each url in
order. -/
def ensure_queue_pending_for_products (s : DBState) (urls : List String) (ts : Rat) : DBState :=
  urls.foldl (fun t u => ensurePendingOne t u ts) s

/-- The repair tool's corrupt-result pass as `main` runs it: find the
empty products, delete them, then re-queue each deleted url. -/
def repairCorruptPass (s : DBState) (ts : Rat) : DBState :=
  let urls := find_empty_products s
  ensure_queue_pending_for_products (delete_products s urls) urls ts

/-- `requeue_all_errors`: collect the urls with `status='error'`,
`UPDATE queue SET status='pending', tries=0, last_error=NULL,
updated_at=? WHERE status='error'`, then delete those urls' locks. -/
def requeue_all_errors (s : DBState) (ts : Rat) : DBState :=
  let urls := (s.queue.filter fun r => decide (r.status = Status.error)).map fun r => r.url
  { s with
    queue := s.queue.map fun r =>
      if r.status = Status.error then
        { r with status := Status.pending, tries := 0, lastError := none, updatedAt := ts }
      else r
    locks := s.locks.filter fun l => !(urls.contains l.url) }

/-! ## Generic helpers -/

/-- Rows of `queue` carrying a given url (`COUNT(*) ... WHERE url=?`). -/
def urlRowCount (s : DBState) (url : String) : Nat :=
  (s.queue.filter fun r => decide (r.url = url)).length

/-- The `products` row for a url, if any. -/
def productRowFor (s : DBState) (u : String) : Option ProductRow :=
  s.products.find? fun r => decide (r.url = u)

theorem hasQueueRow_false_count (s : DBState) (url : String)
    (h : hasQueueRow s url = false) : urlRowCount s url = 0 := by
  unfold hasQueueRow at h
  unfold urlRowCount
  rw [List.length_eq_zero]
  rw [List.filter_eq_nil_iff]
  intro r hr
  have := List.any_eq_false.mp h r hr
  simpa using this

theorem upsert_count_le (s : DBState) (url : String) (k : Kind) (ts : Rat)
    (h : urlRowCount s url ≤ 1) : urlRowCount (upsert_queue s url k ts) url ≤ 1 := by
  unfold upsert_queue
  by_cases hq : hasQueueRow s url
  · simp [hq, h]
  · have h0 := hasQueueRow_false_count s url (by simpa using hq)
    simp only [Bool.not_eq_true] at hq
    simp only [hq, if_neg]
    unfold urlRowCount at h0 ⊢
    simp [List.filter_append, h0]

/-! ## C4: enqueueIfAbsent is idempotent -/

/-- C4: `upsert_queue` on a url that already has a `queue` row leaves the
whole store unchanged (so the row's kind, status, tries, last_error and
updated_at are untouched), and starting from at most one row per url,
any sequence of further `upsert_queue` calls for that url keeps at most
one row for it. -/
theorem upsert_queue_idempotent (s : DBState) (url : String) (kind : Kind) (ts : Rat) :
    (hasQueueRow s url = true → upsert_queue s url kind ts = s) ∧
    (urlRowCount s url ≤ 1 →
      ∀ calls : List (Kind × Rat),
        urlRowCount (calls.foldl (fun t c => upsert_queue t url c.1 c.2) s) url ≤ 1) := by
  constructor
  · intro h
    unfold upsert_queue
    simp [h]
  · intro h calls
    induction calls generalizing s with
    | nil => simpa using h
    | cons c rest ih =>
      simp only [List.foldl_cons]
      exact ih _ (upsert_count_le s url c.1 c.2 h)

/-! ## C2: reservation order -/

theorem rowLt_irrefl (a : QueueRow) : rowLt a a = false := by
  unfold rowLt
  simp

theorem rowLt_eq_false_iff (a b : QueueRow) :
    rowLt a b = false ↔
      (kindPriority b.kind < kindPriority a.kind ∨
        (kindPriority a.kind = kindPriority b.kind ∧ b.updatedAt ≤ a.updatedAt)) := by
  unfold rowLt
  simp only [Bool.or_eq_false_iff, Bool.and_eq_false_iff, decide_eq_false_iff_not, not_lt]
  constructor
  · rintro ⟨h1, h2⟩
    rcases Nat.lt_or_ge (kindPriority b.kind) (kindPriority a.kind) with hlt | hge
    · exact Or.inl hlt
    · have heq : kindPriority a.kind = kindPriority b.kind := Nat.le_antisymm hge h1
      rcases h2 with h2 | h2
      · simp [heq] at h2
      · exact Or.inr ⟨heq, h2⟩
  · rintro (h | ⟨h1, h2⟩)
    · exact ⟨Nat.le_of_lt h, Or.inl (by omega)⟩
    · exact ⟨Nat.le_of_eq h1.symm, Or.inr h2⟩

theorem rowLt_false_trans (a b c : QueueRow) (hab : rowLt a b = false)
    (hbc : rowLt b c = false) : rowLt a c = false := by
  rw [rowLt_eq_false_iff] at hab hbc ⊢
  rcases hab with h1 | ⟨h1, h1'⟩ <;> rcases hbc with h2 | ⟨h2, h2'⟩
  · exact Or.inl (Nat.lt_trans h2 h1)
  · exact Or.inl (by omega)
  · exact Or.inl (by omega)
  · exact Or.inr ⟨h1.trans h2, h2'.trans h1'⟩

theorem rowLt_asymm (a b : QueueRow) (h : rowLt a b = true) : rowLt b a = false := by
  rw [rowLt_eq_false_iff]
  unfold rowLt at h
  simp only [Bool.or_eq_true, Bool.and_eq_true, decide_eq_true_eq] at h
  rcases h with h | ⟨h1, h2⟩
  · exact Or.inl h
  · exact Or.inr ⟨h1.symm, le_of_lt h2⟩

theorem pickMin_mem (l : List QueueRow) (r : QueueRow) (h : pickMin l = some r) : r ∈ l := by
  induction l generalizing r with
  | nil => simp [pickMin] at h
  | cons x xs ih =>
    unfold pickMin at h
    simp only [Option.some.injEq] at h
    cases hx : pickMin xs with
    | none =>
      rw [hx] at h
      simp only [Option.elim] at h
      exact h ▸ List.mem_cons_self x xs
    | some m =>
      rw [hx] at h
      simp only [Option.elim] at h
      by_cases hlt : rowLt m x = true
      · rw [if_pos hlt] at h
        exact List.mem_cons_of_mem x (ih r (h ▸ hx))
      · rw [if_neg hlt] at h
        exact h ▸ List.mem_cons_self x xs

theorem pickMin_eq_none_iff (l : List QueueRow) : pickMin l = none ↔ l = [] := by
  cases l with
  | nil => simp [pickMin]
  | cons x xs => simp [pickMin]

theorem pickMin_min (l : List QueueRow) (m : QueueRow) (h : pickMin l = some m) :
    ∀ r ∈ l, rowLt r m = false := by
  induction l generalizing m with
  | nil => simp [pickMin] at h
  | cons x xs ih =>
    unfold pickMin at h
    simp only [Option.some.injEq] at h
    cases hx : pickMin xs with
    | none =>
      rw [hx] at h
      simp only [Option.elim] at h
      subst h
      intro r hr
      rcases List.mem_cons.mp hr with rfl | hr
      · exact rowLt_irrefl r
      · have hnil := (pickMin_eq_none_iff xs).mp hx
        subst hnil
        simp at hr
    | some m0 =>
      rw [hx] at h
      simp only [Option.elim] at h
      by_cases hlt : rowLt m0 x = true
      · rw [if_pos hlt] at h
        subst h
        intro r hr
        rcases List.mem_cons.mp hr with rfl | hr
        · exact rowLt_asymm _ _ hlt
        · exact ih m0 hx r hr
      · rw [if_neg hlt] at h
        subst h
        intro r hr
        rcases List.mem_cons.mp hr with rfl | hr
        · exact rowLt_irrefl r
        · exact rowLt_false_trans r m0 x (ih m0 hx r hr)
            (by cases hv : rowLt m0 x; rfl; exact absurd hv hlt)

/-- C2: whatever `reserve_next` returns is a pending, unlocked row that
is minimal in `(kindPriority, updatedAt)` among all pending unlocked
rows (catalog before category before product, oldest `updated_at`
first within a kind); a product is returned only when no catalog or
category candidate exists; and `None` is returned exactly when there is
no candidate at all. -/
theorem reserve_next_priority (s : DBState) (ts : Rat) :
    match (reserve_next s ts).1 with
    | none => selectCandidates s = []
    | some (url, kind) =>
      ∃ r ∈ selectCandidates s, r.url = url ∧ r.kind = kind ∧
        r.status = Status.pending ∧ lockExists s r.url = false ∧
        (∀ r2 ∈ selectCandidates s,
          kindPriority r.kind < kindPriority r2.kind ∨
            (kindPriority r.kind = kindPriority r2.kind ∧ r.updatedAt ≤ r2.updatedAt)) ∧
        (kind = Kind.product → ∀ r2 ∈ selectCandidates s, r2.kind = Kind.product) := by
  unfold reserve_next
  cases hp : pickMin (selectCandidates s) with
  | none =>
    simp only
    exact (pickMin_eq_none_iff _).mp hp
  | some r =>
    simp only
    have hmem := pickMin_mem _ _ hp
    have hflt := List.mem_filter.mp hmem
    have hcond := hflt.2
    simp only [Bool.and_eq_true, decide_eq_true_eq, Bool.not_eq_true'] at hcond
    have hminlt := pickMin_min _ _ hp
    have hmin : ∀ r2 ∈ selectCandidates s,
        kindPriority r.kind < kindPriority r2.kind ∨
          (kindPriority r.kind = kindPriority r2.kind ∧ r.updatedAt ≤ r2.updatedAt) := by
      intro r2 hr2
      have := (rowLt_eq_false_iff r2 r).mp (hminlt r2 hr2)
      rcases this with h | ⟨h1, h2⟩
      · exact Or.inl h
      · exact Or.inr ⟨h1.symm, h2⟩
    refine ⟨r, hmem, rfl, rfl, hcond.1, hcond.2, hmin, ?_⟩
    intro hk r2 hr2
    have hle : kindPriority r.kind ≤ kindPriority r2.kind := by
      rcases hmin r2 hr2 with h | ⟨h, _⟩
      · exact Nat.le_of_lt h
      · exact Nat.le_of_eq h
    rw [hk] at hle
    cases hk2 : r2.kind
    · rw [hk2] at hle; simp [kindPriority] at hle
    · rw [hk2] at hle; simp [kindPriority] at hle
    · rfl

/-! ## C6: corrupt-result repair pass -/

/-- Invariant of every reachable store: a pending row has tries 0 and no
last_error (rows are inserted that way and every transition back to
pending resets both fields). -/
def PendingClean (s : DBState) : Prop :=
  ∀ r ∈ s.queue, r.status = Status.pending → r.tries = 0 ∧ r.lastError = none

/-- What the repair pass establishes for one url: a queue row exists,
every row for the url is clean pending, and no lock remains. -/
def RepairedUrl (s : DBState) (u : String) : Prop :=
  hasQueueRow s u = true ∧
  (∀ r ∈ s.queue, r.url = u → r.status = Status.pending ∧ r.tries = 0 ∧ r.lastError = none) ∧
  lockExists s u = false

theorem ensureRowFn_url (u : String) (ts : Rat) (r : QueueRow) :
    (ensureRowFn u ts r).url = r.url := by
  unfold ensureRowFn
  by_cases h : decide (r.url = u) && !(decide (r.status = Status.pending)) <;> simp [h]

theorem ensureRowFn_kind (u : String) (ts : Rat) (r : QueueRow) :
    (ensureRowFn u ts r).kind = r.kind := by
  unfold ensureRowFn
  by_cases h : decide (r.url = u) && !(decide (r.status = Status.pending)) <;> simp [h]

theorem ensurePendingOne_products (s : DBState) (u : String) (ts : Rat) :
    (ensurePendingOne s u ts).products = s.products := rfl

theorem ensurePendingOne_queue (s : DBState) (u : String) (ts : Rat) :
    (ensurePendingOne s u ts).queue =
      if (s.queue.map (ensureRowFn u ts)).any (fun r => decide (r.url = u))
      then s.queue.map (ensureRowFn u ts)
      else s.queue.map (ensureRowFn u ts) ++ [⟨u, Kind.product, Status.pending, 0, none, ts⟩] :=
  rfl

theorem ensurePendingOne_locks (s : DBState) (u : String) (ts : Rat) :
    (ensurePendingOne s u ts).locks = s.locks.filter fun l => !(decide (l.url = u)) := rfl

theorem ensurePendingOne_rows (s : DBState) (u : String) (ts : Rat) (r : QueueRow)
    (hr : r ∈ (ensurePendingOne s u ts).queue) :
    (∃ r0 ∈ s.queue, r = ensureRowFn u ts r0) ∨
      r = ⟨u, Kind.product, Status.pending, 0, none, ts⟩ := by
  rw [ensurePendingOne_queue] at hr
  by_cases h : (s.queue.map (ensureRowFn u ts)).any (fun r => decide (r.url = u))
  · rw [if_pos h] at hr
    simp only [List.mem_map] at hr
    obtain ⟨r0, hr0, he⟩ := hr
    exact Or.inl ⟨r0, hr0, he.symm⟩
  · rw [if_neg h] at hr
    rcases List.mem_append.mp hr with hr | hr
    · simp only [List.mem_map] at hr
      obtain ⟨r0, hr0, he⟩ := hr
      exact Or.inl ⟨r0, hr0, he.symm⟩
    · simp only [List.mem_singleton] at hr
      exact Or.inr hr

theorem ensurePendingOne_clean (s : DBState) (u : String) (ts : Rat)
    (h : PendingClean s) : PendingClean (ensurePendingOne s u ts) := by
  intro r hr hp
  rcases ensurePendingOne_rows s u ts r hr with ⟨r0, hr0, he⟩ | he
  · subst he
    unfold ensureRowFn at hp ⊢
    by_cases hc : decide (r0.url = u) && !(decide (r0.status = Status.pending))
    · simp [hc]
    · simp only [hc, if_neg, Bool.false_eq_true, not_false_iff, if_false] at hp ⊢
      exact h r0 hr0 hp
  · subst he
    exact ⟨rfl, rfl⟩

theorem ensurePendingOne_lock_gone (s : DBState) (u : String) (ts : Rat) :
    lockExists (ensurePendingOne s u ts) u = false := by
  unfold lockExists
  rw [ensurePendingOne_locks]
  simp only [List.any_eq_false]
  intro l hl
  have := (List.mem_filter.mp hl).2
  simpa using this

theorem ensurePendingOne_lock_mono (s : DBState) (u v : String) (ts : Rat)
    (h : lockExists s v = false) : lockExists (ensurePendingOne s u ts) v = false := by
  unfold lockExists at h ⊢
  rw [ensurePendingOne_locks]
  simp only [List.any_eq_false] at h ⊢
  intro l hl
  exact h l (List.mem_filter.mp hl).1

theorem ensurePendingOne_hasRow (s : DBState) (u v : String) (ts : Rat)
    (h : hasQueueRow s v = true) : hasQueueRow (ensurePendingOne s u ts) v = true := by
  unfold hasQueueRow at h ⊢
  rw [ensurePendingOne_queue]
  simp only [List.any_eq_true] at h
  obtain ⟨r0, hr0, hu0⟩ := h
  have hmem : ensureRowFn u ts r0 ∈ s.queue.map (ensureRowFn u ts) :=
    List.mem_map_of_mem _ hr0
  have hv : decide ((ensureRowFn u ts r0).url = v) = true := by
    rw [ensureRowFn_url]
    exact hu0
  by_cases hb : (s.queue.map (ensureRowFn u ts)).any (fun r => decide (r.url = u))
  · rw [if_pos hb]
    simp only [List.any_eq_true]
    exact ⟨_, hmem, hv⟩
  · rw [if_neg hb, List.any_append]
    have : (s.queue.map (ensureRowFn u ts)).any (fun r => decide (r.url = v)) = true := by
      simp only [List.any_eq_true]
      exact ⟨_, hmem, hv⟩
    rw [this]
    rfl

theorem ensurePendingOne_repairs (s : DBState) (u : String) (ts : Rat)
    (h : PendingClean s) : RepairedUrl (ensurePendingOne s u ts) u := by
  refine ⟨?_, ?_, ensurePendingOne_lock_gone s u ts⟩
  · unfold hasQueueRow
    rw [ensurePendingOne_queue]
    by_cases hq : (s.queue.map (ensureRowFn u ts)).any (fun r => decide (r.url = u))
    · rw [if_pos hq]
      exact hq
    · rw [if_neg hq, List.any_append]
      simp
  · intro r hr hu
    rcases ensurePendingOne_rows s u ts r hr with ⟨r0, hr0, he⟩ | he
    · subst he
      rw [ensureRowFn_url] at hu
      unfold ensureRowFn
      by_cases hp : r0.status = Status.pending
      · rw [if_neg (by simp [hp])]
        have hcl := h r0 hr0 hp
        exact ⟨hp, hcl.1, hcl.2⟩
      · rw [if_pos (by simp [hu, hp])]
        exact ⟨rfl, rfl, rfl⟩
    · subst he
      exact ⟨rfl, rfl, rfl⟩

theorem ensurePendingOne_keeps (s : DBState) (u v : String) (ts : Rat)
    (h : RepairedUrl s v) : RepairedUrl (ensurePendingOne s u ts) v := by
  refine ⟨ensurePendingOne_hasRow s u v ts h.1, ?_, ensurePendingOne_lock_mono s u v ts h.2.2⟩
  intro r hr hu
  rcases ensurePendingOne_rows s u ts r hr with ⟨r0, hr0, he⟩ | he
  · subst he
    rw [ensureRowFn_url] at hu
    have hcl := h.2.1 r0 hr0 hu
    unfold ensureRowFn
    rw [if_neg (by simp [hcl.1])]
    exact hcl
  · subst he
    exact ⟨rfl, rfl, rfl⟩

theorem ensurePendingOne_kinds (s : DBState) (u : String) (ts : Rat) (r : QueueRow)
    (hr : r ∈ (ensurePendingOne s u ts).queue) :
    (∃ r0 ∈ s.queue, r0.url = r.url ∧ r0.kind = r.kind) ∨ r.kind = Kind.product := by
  rcases ensurePendingOne_rows s u ts r hr with ⟨r0, hr0, he⟩ | he
  · subst he
    exact Or.inl ⟨r0, hr0, (ensureRowFn_url u ts r0).symm, (ensureRowFn_kind u ts r0).symm⟩
  · subst he
    exact Or.inr rfl

theorem ensure_fold_spec (urls : List String) (s : DBState) (ts : Rat) (h : PendingClean s) :
    PendingClean (ensure_queue_pending_for_products s urls ts) ∧
    (∀ v, RepairedUrl s v → RepairedUrl (ensure_queue_pending_for_products s urls ts) v) ∧
    (∀ u ∈ urls, RepairedUrl (ensure_queue_pending_for_products s urls ts) u) ∧
    (ensure_queue_pending_for_products s urls ts).products = s.products ∧
    (∀ r ∈ (ensure_queue_pending_for_products s urls ts).queue,
      (∃ r0 ∈ s.queue, r0.url = r.url ∧ r0.kind = r.kind) ∨ r.kind = Kind.product) := by
  induction urls generalizing s with
  | nil =>
    refine ⟨h, fun v hv => hv, by simp, rfl, ?_⟩
    intro r hr
    exact Or.inl ⟨r, hr, rfl, rfl⟩
  | cons u rest ih =>
    have hstep := ih (ensurePendingOne s u ts) (ensurePendingOne_clean s u ts h)
    unfold ensure_queue_pending_for_products at hstep ⊢
    simp only [List.foldl_cons]
    refine ⟨hstep.1, ?_, ?_, ?_, ?_⟩
    · intro v hv
      exact hstep.2.1 v (ensurePendingOne_keeps s u v ts hv)
    · intro u2 hu2
      rcases List.mem_cons.mp hu2 with rfl | hu2
      · exact hstep.2.1 u2 (ensurePendingOne_repairs s u2 ts h)
      · exact hstep.2.2.1 u2 hu2
    · rw [hstep.2.2.2.1, ensurePendingOne_products]
    · intro r hr
      rcases hstep.2.2.2.2 r hr with ⟨r0, hr0, hu0, hk0⟩ | hk
      · rcases ensurePendingOne_kinds s u ts r0 hr0 with ⟨r1, hr1, hu1, hk1⟩ | hk1
        · exact Or.inl ⟨r1, hr1, hu1.trans hu0, hk1.trans hk0⟩
        · exact Or.inr (hk0 ▸ hk1)
      · exact Or.inr hk

/-- C6: after the repair tool's corrupt-result pass, no product row
matching the empty-result heuristic remains, and every detected url has
a queue row (every row for it clean pending: status pending, tries 0,
last_error cleared) and no lock; a url with no prior queue row only
gets kind product rows. -/
theorem repair_corrupt_pass_spec (s : DBState) (ts : Rat) (h : PendingClean s) :
    (∀ r ∈ (repairCorruptPass s ts).products, isEmptyProduct r = false) ∧
    (∀ u ∈ find_empty_products s,
      hasQueueRow (repairCorruptPass s ts) u = true ∧
      (∀ r ∈ (repairCorruptPass s ts).queue, r.url = u →
        r.status = Status.pending ∧ r.tries = 0 ∧ r.lastError = none) ∧
      lockExists (repairCorruptPass s ts) u = false) ∧
    (∀ u, hasQueueRow s u = false →
      ∀ r ∈ (repairCorruptPass s ts).queue, r.url = u → r.kind = Kind.product) := by
  have hdel : PendingClean (delete_products s (find_empty_products s)) := h
  have hfold := ensure_fold_spec (find_empty_products s)
      (delete_products s (find_empty_products s)) ts hdel
  unfold repairCorruptPass
  refine ⟨?_, ?_, ?_⟩
  · intro r hr
    rw [hfold.2.2.2.1] at hr
    unfold delete_products at hr
    have hm := List.mem_filter.mp hr
    cases hv : isEmptyProduct r
    · rfl
    · exfalso
      have : r.url ∈ find_empty_products s := by
        unfold find_empty_products
        exact List.mem_map_of_mem _ (List.mem_filter.mpr ⟨hm.1, hv⟩)
      have hc := hm.2
      simp only [Bool.not_eq_true'] at hc
      rw [List.contains_eq_any_beq] at hc
      have := List.any_eq_false.mp hc r.url this
      simp at this
  · intro u hu
    have := hfold.2.2.1 u hu
    exact ⟨this.1, this.2.1, this.2.2⟩
  · intro u hno r hr hru
    rcases hfold.2.2.2.2 r hr with ⟨r0, hr0, hu0, hk0⟩ | hk
    · exfalso
      have : hasQueueRow s u = true := by
        unfold hasQueueRow
        simp only [List.any_eq_true]
        exact ⟨r0, hr0, by simp [hu0, hru]⟩
      rw [this] at hno
      cases hno
    · exact hk

/-! ## C8: recordError -/

/-- C8: `mark_error` turns the url's row into status `error` with tries
incremented by one, last_error set to the message truncated to 1000
characters and updated_at bumped to the call's timestamp; it removes any
lock for that url, and every stored last_error for the url is at most
1000 characters long. -/
theorem mark_error_records (s : DBState) (url err : String) (ts : Rat) (r : QueueRow)
    (hr : r ∈ s.queue) (hu : r.url = url) :
    { r with status := Status.error, tries := r.tries + 1,
             lastError := some (pyTake err 1000), updatedAt := ts }
        ∈ (mark_error s url err ts).queue
    ∧ lockExists (mark_error s url err ts) url = false
    ∧ ∀ r' ∈ (mark_error s url err ts).queue, r'.url = url →
        r'.status = Status.error ∧ ∃ e, r'.lastError = some e ∧ e.length ≤ 1000 := by
  refine ⟨?_, ?_, ?_⟩
  · unfold mark_error
    simp only [List.mem_map]
    exact ⟨r, hr, by simp [hu]⟩
  · unfold lockExists mark_error
    simp only [List.any_eq_false]
    intro l hl
    have := List.mem_filter.mp hl
    simpa using this.2
  · intro r' hr' hu'
    unfold mark_error at hr'
    simp only [List.mem_map] at hr'
    obtain ⟨r0, hr0, heq⟩ := hr'
    by_cases h0 : r0.url = url
    · rw [if_pos h0] at heq
      refine ⟨by rw [← heq], pyTake err 1000, by rw [← heq], ?_⟩
      unfold pyTake
      have : (String.mk (err.toList.take 1000)).length = (err.toList.take 1000).length := rfl
      rw [this]
      exact le_trans (List.length_take_le 1000 err.toList) (le_refl 1000)
    · rw [if_neg h0] at heq
      rw [← heq] at hu'
      exact absurd hu' h0

/-! ## C7: error amnesty -/

/-- C7: after `requeue_all_errors`, every row that was in status `error`
is pending with tries 0 and last_error cleared and its lock is gone,
while rows that were not in status `error` are still present unchanged,
and urls with no error row keep their lock state. -/
theorem requeue_all_errors_spec (s : DBState) (ts : Rat) :
    (∀ r ∈ s.queue, r.status = Status.error →
      { r with status := Status.pending, tries := 0, lastError := none, updatedAt := ts }
          ∈ (requeue_all_errors s ts).queue
        ∧ lockExists (requeue_all_errors s ts) r.url = false) ∧
    (∀ r ∈ s.queue, r.status ≠ Status.error → r ∈ (requeue_all_errors s ts).queue) ∧
    (∀ u : String, (∀ r ∈ s.queue, r.url = u → r.status ≠ Status.error) →
      lockExists (requeue_all_errors s ts) u = lockExists s u) := by
  refine ⟨?_, ?_, ?_⟩
  · intro r hr hst
    constructor
    · unfold requeue_all_errors
      simp only [List.mem_map]
      exact ⟨r, hr, by simp [hst]⟩
    · unfold lockExists requeue_all_errors
      simp only [List.any_eq_false]
      intro l hl
      have hmem := List.mem_filter.mp hl
      have hnc := hmem.2
      simp only [Bool.not_eq_true'] at hnc
      intro hlu
      have hul : l.url = r.url := by simpa using hlu
      have hmm : l.url ∈ (s.queue.filter fun r0 => decide (r0.status = Status.error)).map
          (fun r0 => r0.url) := by
        simp only [List.mem_map]
        exact ⟨r, List.mem_filter.mpr ⟨hr, by simp [hst]⟩, hul.symm⟩
      simp only [List.contains_eq_any_beq, List.any_eq_false] at hnc
      have : ¬(l.url == l.url) = true := hnc l.url hmm
      simp at this
  · intro r hr hst
    unfold requeue_all_errors
    simp only [List.mem_map]
    exact ⟨r, hr, by simp [hst]⟩
  · intro u hu
    unfold lockExists requeue_all_errors
    simp only
    apply Bool.eq_iff_iff.mpr
    simp only [List.any_eq_true]
    constructor
    · rintro ⟨l, hl, he⟩
      exact ⟨l, (List.mem_filter.mp hl).1, he⟩
    · rintro ⟨l, hl, he⟩
      refine ⟨l, List.mem_filter.mpr ⟨hl, ?_⟩, he⟩
      simp only [Bool.not_eq_true']
      by_contra hne
      have hc : ((s.queue.filter fun r0 => decide (r0.status = Status.error)).map
          (fun r0 => r0.url)).contains l.url = true := by
        cases hcv : ((s.queue.filter fun r0 => decide (r0.status = Status.error)).map
            (fun r0 => r0.url)).contains l.url
        · exact absurd hcv hne
        · rfl
      have hc2 : l.url ∈ (s.queue.filter fun r0 => decide (r0.status = Status.error)).map
          (fun r0 => r0.url) := by simpa using hc
      simp only [List.mem_map] at hc2
      obtain ⟨r0, hr0, hru⟩ := hc2
      have hrmem := List.mem_filter.mp hr0
      have hr0u : r0.url = u := by
        have hlu2 : l.url = u := by simpa using he
        rw [hru, hlu2]
      exact hu r0 hrmem.1 hr0u (by simpa using hrmem.2)

/-! ## The system's operations against the shared store -/

/-- One store call of the crawler or of the repair tool, with the
timestamp its `time.time()` produced. -/
inductive Op where
  | seedCatalog (url : String) (ts : Rat)
  | upsertQueue (url : String) (kind : Kind) (ts : Rat)
  | markDone (url : String) (ts : Rat)
  | markError (url : String) (err : String) (ts : Rat)
  | reserveNext (ts : Rat)
  | insertCategory (url name : String) (ts : Rat)
  | insertDiscovery (url title categoryUrl : String) (ts : Rat)
  | upsertProduct (d : ProductData) (ts : Rat)
  | repairCorrupt (ts : Rat)
  | repairErrors (ts : Rat)

def applyOp (s : DBState) : Op → DBState
  | Op.seedCatalog url ts => seed_catalog s url ts
  | Op.upsertQueue url kind ts => upsert_queue s url kind ts
  | Op.markDone url ts => mark_done s url ts
  | Op.markError url err ts => mark_error s url err ts
  | Op.reserveNext ts => (reserve_next s ts).2
  | Op.insertCategory url name ts => insert_category s url name ts
  | Op.insertDiscovery url title categoryUrl ts =>
      insert_product_discovery s url title categoryUrl ts
  | Op.upsertProduct d ts => upsert_product s d ts
  | Op.repairCorrupt ts => repairCorruptPass s ts
  | Op.repairErrors ts => requeue_all_errors s ts

def applyOps (s : DBState) (ops : List Op) : DBState := ops.foldl applyOp s

theorem seed_catalog_locks (s : DBState) (url : String) (ts : Rat) :
    (seed_catalog s url ts).locks = s.locks := by
  unfold seed_catalog
  by_cases h : hasQueueRow s url <;> simp [h]

theorem upsert_queue_locks (s : DBState) (url : String) (k : Kind) (ts : Rat) :
    (upsert_queue s url k ts).locks = s.locks := by
  unfold upsert_queue
  by_cases h : hasQueueRow s url <;> simp [h]

theorem insert_category_locks (s : DBState) (url name : String) (ts : Rat) :
    (insert_category s url name ts).locks = s.locks := by
  unfold insert_category
  by_cases h : s.categories.any (fun r => decide (r.url = url)) <;> simp [h]

theorem insert_discovery_locks (s : DBState) (url title categoryUrl : String) (ts : Rat) :
    (insert_product_discovery s url title categoryUrl ts).locks = s.locks := by
  unfold insert_product_discovery
  by_cases h : s.productDiscovery.any (fun r => decide (r.url = url)) <;> simp [h]

theorem upsert_product_locks (s : DBState) (d : ProductData) (ts : Rat) :
    (upsert_product s d ts).locks = s.locks := by
  unfold upsert_product
  by_cases h : product_exists s d.url <;> simp [h]

theorem seed_catalog_queue (s : DBState) (url : String) (ts : Rat) :
    (seed_catalog s url ts).queue =
      if hasQueueRow s url then s.queue
      else s.queue ++ [⟨url, Kind.catalog, Status.pending, 0, none, ts⟩] := by
  unfold seed_catalog
  by_cases h : hasQueueRow s url <;> simp [h]

theorem upsert_queue_queue (s : DBState) (url : String) (k : Kind) (ts : Rat) :
    (upsert_queue s url k ts).queue =
      if hasQueueRow s url then s.queue
      else s.queue ++ [⟨url, k, Status.pending, 0, none, ts⟩] := by
  unfold upsert_queue
  by_cases h : hasQueueRow s url <;> simp [h]

theorem insert_category_queue (s : DBState) (url name : String) (ts : Rat) :
    (insert_category s url name ts).queue = s.queue := by
  unfold insert_category
  by_cases h : s.categories.any (fun r => decide (r.url = url)) <;> simp [h]

theorem insert_discovery_queue (s : DBState) (url title categoryUrl : String) (ts : Rat) :
    (insert_product_discovery s url title categoryUrl ts).queue = s.queue := by
  unfold insert_product_discovery
  by_cases h : s.productDiscovery.any (fun r => decide (r.url = url)) <;> simp [h]

theorem upsert_product_queue (s : DBState) (d : ProductData) (ts : Rat) :
    (upsert_product s d ts).queue = s.queue := by
  unfold upsert_product
  by_cases h : product_exists s d.url <;> simp [h]

theorem reserve_next_queue (s : DBState) (ts : Rat) :
    ((reserve_next s ts).2).queue = s.queue := by
  unfold reserve_next
  cases pickMin (selectCandidates s) with
  | none => rfl
  | some r =>
    simp only
    unfold insertLock
    by_cases h : lockExists s r.url <;> simp [h]

theorem insertLock_locks_mono (s : DBState) (url : String) (ts : Rat) (u : String)
    (h : lockExists s u = true) : lockExists (insertLock s url ts) u = true := by
  unfold insertLock
  by_cases hc : lockExists s url
  · rw [if_pos hc]; exact h
  · rw [if_neg hc]
    unfold lockExists at h ⊢
    rw [List.any_append]
    simp only [h]
    rfl

theorem insertLock_self (s : DBState) (url : String) (ts : Rat) :
    lockExists (insertLock s url ts) url = true := by
  unfold insertLock
  by_cases hc : lockExists s url
  · rw [if_pos hc]; exact hc
  · rw [if_neg hc]
    unfold lockExists
    rw [List.any_append]
    simp

theorem lockExists_filter_keep (locks : List LockRow) (p : LockRow → Bool) (u : String)
    (hex : locks.any (fun l => decide (l.url = u)) = true)
    (hp : ∀ l ∈ locks, l.url = u → p l = true) :
    (locks.filter p).any (fun l => decide (l.url = u)) = true := by
  simp only [List.any_eq_true] at hex ⊢
  obtain ⟨l, hl, he⟩ := hex
  have hu : l.url = u := by simpa using he
  exact ⟨l, List.mem_filter.mpr ⟨hl, hp l hl hu⟩, he⟩

/-! ## C1: atomicity of reserveNext, stated through its observable
consequences in the sequential model -/

/-- Does this operation, applied in state `s`, release the lock of `u`:
a `mark_done`/`mark_error` on `u`, the corrupt-result pass when `u` is
among the detected urls, or the error amnesty when `u` has an error
row. -/
def touchesLock (s : DBState) (u : String) : Op → Bool
  | Op.markDone url _ => decide (url = u)
  | Op.markError url _ _ => decide (url = u)
  | Op.repairCorrupt _ => (find_empty_products s).contains u
  | Op.repairErrors _ =>
      s.queue.any fun r => decide (r.url = u) && decide (r.status = Status.error)
  | _ => false

/-- No operation of the run releases `u`'s lock (checked against the
state each operation actually runs in). -/
def noLockRelease (u : String) : DBState → List Op → Bool
  | _, [] => true
  | s, op :: ops => !(touchesLock s u op) && noLockRelease u (applyOp s op) ops

theorem ensurePendingOne_lock_keep (s : DBState) (w : String) (ts : Rat) (u : String)
    (hne : u ≠ w) (hl : lockExists s u = true) :
    lockExists (ensurePendingOne s w ts) u = true := by
  unfold lockExists
  rw [ensurePendingOne_locks]
  apply lockExists_filter_keep _ _ _ hl
  intro l _ hlu
  simp [hlu, hne]

theorem ensure_fold_lock_keep (urls : List String) (u : String) (ts : Rat) :
    ∀ s : DBState, ¬ u ∈ urls → lockExists s u = true →
      lockExists (ensure_queue_pending_for_products s urls ts) u = true := by
  induction urls with
  | nil => intro s _ hl; exact hl
  | cons w rest ih =>
    intro s hu hl
    unfold ensure_queue_pending_for_products at ih ⊢
    simp only [List.foldl_cons]
    have hnew : u ≠ w := fun he => hu (he ▸ List.mem_cons_self w rest)
    exact ih _ (fun hm => hu (List.mem_cons_of_mem w hm))
      (ensurePendingOne_lock_keep s w ts u hnew hl)

theorem lock_preserved_step (s : DBState) (u : String) (op : Op)
    (hl : lockExists s u = true) (ht : touchesLock s u op = false) :
    lockExists (applyOp s op) u = true := by
  cases op with
  | seedCatalog url ts =>
    unfold lockExists at hl ⊢
    rw [applyOp, seed_catalog_locks]
    exact hl
  | upsertQueue url k ts =>
    unfold lockExists at hl ⊢
    rw [applyOp, upsert_queue_locks]
    exact hl
  | markDone url ts =>
    have hne : url ≠ u := by simpa [touchesLock] using ht
    rw [applyOp]
    unfold mark_done lockExists
    apply lockExists_filter_keep _ _ _ hl
    intro l _ hlu
    simp only [hlu, Bool.not_eq_true', decide_eq_false_iff_not]
    exact fun h => hne h.symm
  | markError url err ts =>
    have hne : url ≠ u := by simpa [touchesLock] using ht
    rw [applyOp]
    unfold mark_error lockExists
    apply lockExists_filter_keep _ _ _ hl
    intro l _ hlu
    simp only [hlu, Bool.not_eq_true', decide_eq_false_iff_not]
    exact fun h => hne h.symm
  | reserveNext ts =>
    rw [applyOp]
    unfold reserve_next
    cases pickMin (selectCandidates s) with
    | none => exact hl
    | some r => exact insertLock_locks_mono s r.url ts u hl
  | insertCategory url name ts =>
    unfold lockExists at hl ⊢
    rw [applyOp, insert_category_locks]
    exact hl
  | insertDiscovery url title categoryUrl ts =>
    unfold lockExists at hl ⊢
    rw [applyOp, insert_discovery_locks]
    exact hl
  | upsertProduct d ts =>
    unfold lockExists at hl ⊢
    rw [applyOp, upsert_product_locks]
    exact hl
  | repairCorrupt ts =>
    have hnm : ¬ u ∈ find_empty_products s := by
      intro hm
      have : (find_empty_products s).contains u = true := by simpa using hm
      rw [touchesLock] at ht
      rw [this] at ht
      cases ht
    rw [applyOp]
    unfold repairCorruptPass
    exact ensure_fold_lock_keep (find_empty_products s) u ts
      (delete_products s (find_empty_products s)) hnm hl
  | repairErrors ts =>
    rw [applyOp]
    unfold requeue_all_errors lockExists
    apply lockExists_filter_keep _ _ _ hl
    intro l _ hlu
    simp only [Bool.not_eq_true', List.contains_eq_any_beq, List.any_eq_false]
    intro x hx
    simp only [List.mem_map] at hx
    obtain ⟨r0, hr0, hxu⟩ := hx
    have hrmem := List.mem_filter.mp hr0
    rw [touchesLock] at ht
    have := List.any_eq_false.mp ht r0 hrmem.1
    simp only [Bool.and_eq_true, decide_eq_true_eq, not_and] at this
    intro hbeq
    have hxl : l.url = x := by simpa using hbeq
    exact this (by rw [hxu, ← hxl, hlu]) (by simpa using hrmem.2)

theorem lock_preserved_run (u : String) (ops : List Op) :
    ∀ s : DBState, lockExists s u = true → noLockRelease u s ops = true →
      lockExists (applyOps s ops) u = true := by
  induction ops with
  | nil => intro s hl _; exact hl
  | cons op rest ih =>
    intro s hl hops
    unfold noLockRelease at hops
    simp only [Bool.and_eq_true, Bool.not_eq_true'] at hops
    unfold applyOps
    simp only [List.foldl_cons]
    exact ih (applyOp s op) (lock_preserved_step s u op hl hops.1) hops.2

theorem reserve_next_not_locked (s : DBState) (ts : Rat) (u : String)
    (h : lockExists s u = true) :
    ∀ k, (reserve_next s ts).1 ≠ some (u, k) := by
  intro k
  unfold reserve_next
  cases hp : pickMin (selectCandidates s) with
  | none => simp
  | some r =>
    simp only [ne_eq, Option.some.injEq, Prod.mk.injEq, not_and]
    intro hu _
    have hmem := pickMin_mem _ _ hp
    have hc := (List.mem_filter.mp hmem).2
    simp only [Bool.and_eq_true, Bool.not_eq_true'] at hc
    rw [hu, h] at hc
    cases hc.2

/-- C1: when `reserve_next` returns `(url, kind)`, no lock for `url`
existed at selection time, a lock for it exists in the post-state, and
after any further operations of the system none of which is a
`mark_done`/`mark_error`/repair on `url`, a later `reserve_next` can
never return `url` again. -/
theorem reserve_next_atomic_spec (s : DBState) (ts : Rat) (url : String) (kind : Kind)
    (ops : List Op) (h : (reserve_next s ts).1 = some (url, kind))
    (hops : noLockRelease url (reserve_next s ts).2 ops = true) :
    lockExists s url = false ∧
    lockExists (reserve_next s ts).2 url = true ∧
    ∀ ts2 k2, (reserve_next (applyOps (reserve_next s ts).2 ops) ts2).1 ≠ some (url, k2) := by
  have hfree : lockExists s url = false := by
    unfold reserve_next at h
    cases hp : pickMin (selectCandidates s) with
    | none => rw [hp] at h; cases h
    | some r =>
      rw [hp] at h
      simp only [Option.some.injEq, Prod.mk.injEq] at h
      have hmem := pickMin_mem _ _ hp
      have hc := (List.mem_filter.mp hmem).2
      simp only [Bool.and_eq_true, Bool.not_eq_true'] at hc
      rw [← h.1]
      exact hc.2
  have hafter : lockExists (reserve_next s ts).2 url = true := by
    unfold reserve_next at h ⊢
    cases hp : pickMin (selectCandidates s) with
    | none => rw [hp] at h; cases h
    | some r =>
      rw [hp] at h
      simp only [Option.some.injEq, Prod.mk.injEq] at h
      simp only
      rw [← h.1]
      exact insertLock_self s r.url ts
  exact ⟨hfree, hafter, fun ts2 k2 =>
    reserve_next_not_locked _ ts2 url (lock_preserved_run url ops _ hafter hops) k2⟩

/-! ## C3: lock release and no revival without repair -/

/-- Is there a pending row for `u`? -/
def hasPendingRow (s : DBState) (u : String) : Bool :=
  s.queue.any fun r => decide (r.url = u) && decide (r.status = Status.pending)

/-- Does this operation, applied in state `s`, reset `u`'s status to
pending: the corrupt-result pass when `u` is among the detected urls, or
the error amnesty when `u` has an error row. -/
def revivesUrl (s : DBState) (u : String) : Op → Bool
  | Op.repairCorrupt _ => (find_empty_products s).contains u
  | Op.repairErrors _ =>
      s.queue.any fun r => decide (r.url = u) && decide (r.status = Status.error)
  | _ => false

/-- No operation of the run is a repair resetting `u` to pending. -/
def noRevive (u : String) : DBState → List Op → Bool
  | _, [] => true
  | s, op :: ops => !(revivesUrl s u op) && noRevive u (applyOp s op) ops

theorem any_url_map (l : List QueueRow) (f : QueueRow → QueueRow)
    (hf : ∀ r, (f r).url = r.url) (u : String) :
    ((l.map f).any fun r => decide (r.url = u)) = (l.any fun r => decide (r.url = u)) := by
  rw [List.any_map]
  congr 1
  funext r
  simp [Function.comp, hf]

theorem pendingRow_map_false (l : List QueueRow) (f : QueueRow → QueueRow) (u : String)
    (hf : ∀ r, (f r).url = r.url)
    (h : ∀ r ∈ l, r.url = u → ¬ (f r).status = Status.pending) :
    ((l.map f).any fun r => decide (r.url = u) && decide (r.status = Status.pending)) = false := by
  simp only [List.any_eq_false]
  intro x hx
  simp only [List.mem_map] at hx
  obtain ⟨r, hr, he⟩ := hx
  subst he
  simp only [Bool.and_eq_true, decide_eq_true_eq, not_and, hf]
  exact fun hu => h r hr hu

theorem ensurePendingOne_notPending (s : DBState) (w : String) (ts : Rat) (u : String)
    (hne : u ≠ w) (hq : hasQueueRow s u = true) (hp : hasPendingRow s u = false) :
    hasQueueRow (ensurePendingOne s w ts) u = true ∧
      hasPendingRow (ensurePendingOne s w ts) u = false := by
  refine ⟨ensurePendingOne_hasRow s w u ts hq, ?_⟩
  unfold hasPendingRow at hp ⊢
  simp only [List.any_eq_false] at hp ⊢
  intro x hx
  rcases ensurePendingOne_rows s w ts x hx with ⟨r0, hr0, he⟩ | he
  · subst he
    rw [ensureRowFn_url]
    simp only [Bool.and_eq_true, decide_eq_true_eq, not_and]
    intro hu
    have h0 := hp r0 hr0
    simp only [Bool.and_eq_true, decide_eq_true_eq, not_and] at h0
    have hnp := h0 hu
    unfold ensureRowFn
    rw [if_neg (by simp [hu, hne])]
    exact hnp
  · subst he
    simp only [Bool.and_eq_true, decide_eq_true_eq, not_and]
    intro hu
    exact absurd hu.symm hne

theorem ensure_fold_notPending (urls : List String) (u : String) (ts : Rat) :
    ∀ s : DBState, ¬ u ∈ urls → hasQueueRow s u = true → hasPendingRow s u = false →
      hasQueueRow (ensure_queue_pending_for_products s urls ts) u = true ∧
        hasPendingRow (ensure_queue_pending_for_products s urls ts) u = false := by
  induction urls with
  | nil => intro s _ hq hp; exact ⟨hq, hp⟩
  | cons w rest ih =>
    intro s hu hq hp
    unfold ensure_queue_pending_for_products at ih ⊢
    simp only [List.foldl_cons]
    have hnew : u ≠ w := fun he => hu (he ▸ List.mem_cons_self w rest)
    have hstep := ensurePendingOne_notPending s w ts u hnew hq hp
    exact ih _ (fun hm => hu (List.mem_cons_of_mem w hm)) hstep.1 hstep.2

theorem hasQueueRow_congr {s t : DBState} (h : t.queue = s.queue) (u : String) :
    hasQueueRow t u = hasQueueRow s u := by
  unfold hasQueueRow
  rw [h]

theorem hasPendingRow_congr {s t : DBState} (h : t.queue = s.queue) (u : String) :
    hasPendingRow t u = hasPendingRow s u := by
  unfold hasPendingRow
  rw [h]

theorem mark_done_queue (s : DBState) (url : String) (ts : Rat) :
    (mark_done s url ts).queue = s.queue.map fun r =>
      if r.url = url then { r with status := Status.done, updatedAt := ts } else r := rfl

theorem mark_error_queue (s : DBState) (url err : String) (ts : Rat) :
    (mark_error s url err ts).queue = s.queue.map fun r =>
      if r.url = url then
        { r with status := Status.error, tries := r.tries + 1,
                 lastError := some (pyTake err 1000), updatedAt := ts }
      else r := rfl

theorem requeue_queue (s : DBState) (ts : Rat) :
    (requeue_all_errors s ts).queue = s.queue.map fun r =>
      if r.status = Status.error then
        { r with status := Status.pending, tries := 0, lastError := none, updatedAt := ts }
      else r := rfl

theorem notPending_step (s : DBState) (u : String) (op : Op)
    (hq : hasQueueRow s u = true) (hp : hasPendingRow s u = false)
    (hrev : revivesUrl s u op = false) :
    hasQueueRow (applyOp s op) u = true ∧ hasPendingRow (applyOp s op) u = false := by
  cases op with
  | seedCatalog url ts =>
    rw [applyOp]
    unfold hasQueueRow at hq
    unfold hasPendingRow at hp
    unfold hasQueueRow hasPendingRow
    rw [seed_catalog_queue]
    by_cases hc : hasQueueRow s url
    · rw [if_pos hc]; exact ⟨hq, hp⟩
    · rw [if_neg hc]
      have hne : ¬ (url = u) := by
        intro he
        rw [he] at hc
        unfold hasQueueRow at hc
        exact hc hq
      constructor
      · rw [List.any_append, hq]; rfl
      · rw [List.any_append, hp]
        simp [hne]
  | upsertQueue url k ts =>
    rw [applyOp]
    unfold hasQueueRow at hq
    unfold hasPendingRow at hp
    unfold hasQueueRow hasPendingRow
    rw [upsert_queue_queue]
    by_cases hc : hasQueueRow s url
    · rw [if_pos hc]; exact ⟨hq, hp⟩
    · rw [if_neg hc]
      have hne : ¬ (url = u) := by
        intro he
        rw [he] at hc
        unfold hasQueueRow at hc
        exact hc hq
      constructor
      · rw [List.any_append, hq]; rfl
      · rw [List.any_append, hp]
        simp [hne]
  | markDone url ts =>
    rw [applyOp]
    unfold hasQueueRow at hq
    unfold hasPendingRow at hp
    unfold hasQueueRow hasPendingRow
    rw [mark_done_queue]
    have hf : ∀ r : QueueRow,
        ((if r.url = url then { r with status := Status.done, updatedAt := ts } else r) :
          QueueRow).url = r.url := by
      intro r
      by_cases h : r.url = url <;> simp [h]
    refine ⟨by rw [any_url_map _ _ hf]; exact hq, ?_⟩
    apply pendingRow_map_false _ _ _ hf
    intro r hr hu
    have h0 := List.any_eq_false.mp hp r hr
    simp only [Bool.and_eq_true, decide_eq_true_eq, not_and] at h0
    by_cases h : r.url = url
    · rw [if_pos h]
      simp
    · rw [if_neg h]
      exact h0 hu
  | markError url err ts =>
    rw [applyOp]
    unfold hasQueueRow at hq
    unfold hasPendingRow at hp
    unfold hasQueueRow hasPendingRow
    rw [mark_error_queue]
    have hf : ∀ r : QueueRow,
        ((if r.url = url then
            { r with status := Status.error, tries := r.tries + 1,
                     lastError := some (pyTake err 1000), updatedAt := ts }
          else r) : QueueRow).url = r.url := by
      intro r
      by_cases h : r.url = url <;> simp [h]
    refine ⟨by rw [any_url_map _ _ hf]; exact hq, ?_⟩
    apply pendingRow_map_false _ _ _ hf
    intro r hr hu
    have h0 := List.any_eq_false.mp hp r hr
    simp only [Bool.and_eq_true, decide_eq_true_eq, not_and] at h0
    by_cases h : r.url = url
    · rw [if_pos h]
      simp
    · rw [if_neg h]
      exact h0 hu
  | reserveNext ts =>
    rw [applyOp]
    rw [hasQueueRow_congr (reserve_next_queue s ts), hasPendingRow_congr (reserve_next_queue s ts)]
    exact ⟨hq, hp⟩
  | insertCategory url name ts =>
    rw [applyOp]
    rw [hasQueueRow_congr (insert_category_queue s url name ts),
        hasPendingRow_congr (insert_category_queue s url name ts)]
    exact ⟨hq, hp⟩
  | insertDiscovery url title categoryUrl ts =>
    rw [applyOp]
    rw [hasQueueRow_congr (insert_discovery_queue s url title categoryUrl ts),
        hasPendingRow_congr (insert_discovery_queue s url title categoryUrl ts)]
    exact ⟨hq, hp⟩
  | upsertProduct d ts =>
    rw [applyOp]
    rw [hasQueueRow_congr (upsert_product_queue s d ts),
        hasPendingRow_congr (upsert_product_queue s d ts)]
    exact ⟨hq, hp⟩
  | repairCorrupt ts =>
    have hnm : ¬ u ∈ find_empty_products s := by
      intro hm
      have hcm : (find_empty_products s).contains u = true := by simpa using hm
      rw [revivesUrl] at hrev
      rw [hcm] at hrev
      cases hrev
    rw [applyOp]
    unfold repairCorruptPass
    exact ensure_fold_notPending (find_empty_products s) u ts
      (delete_products s (find_empty_products s)) hnm hq hp
  | repairErrors ts =>
    rw [applyOp]
    unfold hasQueueRow at hq
    unfold hasPendingRow at hp
    unfold hasQueueRow hasPendingRow
    rw [requeue_queue]
    rw [revivesUrl] at hrev
    have hf : ∀ r : QueueRow,
        ((if r.status = Status.error then
            { r with status := Status.pending, tries := 0, lastError := none, updatedAt := ts }
          else r) : QueueRow).url = r.url := by
      intro r
      by_cases h : r.status = Status.error <;> simp [h]
    refine ⟨by rw [any_url_map _ _ hf]; exact hq, ?_⟩
    apply pendingRow_map_false _ _ _ hf
    intro r hr hu
    have h0 := List.any_eq_false.mp hp r hr
    simp only [Bool.and_eq_true, decide_eq_true_eq, not_and] at h0
    have h1 := List.any_eq_false.mp hrev r hr
    simp only [Bool.and_eq_true, decide_eq_true_eq, not_and] at h1
    rw [if_neg (h1 hu)]
    exact h0 hu

theorem notPending_run (u : String) (ops : List Op) :
    ∀ s : DBState, hasQueueRow s u = true → hasPendingRow s u = false →
      noRevive u s ops = true →
      hasQueueRow (applyOps s ops) u = true ∧ hasPendingRow (applyOps s ops) u = false := by
  induction ops with
  | nil => intro s hq hp _; exact ⟨hq, hp⟩
  | cons op rest ih =>
    intro s hq hp hops
    unfold noRevive at hops
    simp only [Bool.and_eq_true, Bool.not_eq_true'] at hops
    unfold applyOps
    simp only [List.foldl_cons]
    have hstep := notPending_step s u op hq hp hops.1
    exact ih _ hstep.1 hstep.2 hops.2

theorem reserve_next_not_pending (s : DBState) (ts : Rat) (u : String)
    (h : hasPendingRow s u = false) :
    ∀ k, (reserve_next s ts).1 ≠ some (u, k) := by
  intro k
  unfold reserve_next
  cases hpick : pickMin (selectCandidates s) with
  | none => simp
  | some r =>
    simp only [ne_eq, Option.some.injEq, Prod.mk.injEq, not_and]
    intro hu _
    have hmem := pickMin_mem _ _ hpick
    have hflt := List.mem_filter.mp hmem
    have hc := hflt.2
    simp only [Bool.and_eq_true, decide_eq_true_eq] at hc
    have := List.any_eq_false.mp h r hflt.1
    simp only [Bool.and_eq_true, decide_eq_true_eq, not_and] at this
    exact this hu hc.1

theorem lock_filter_self_gone (locks : List LockRow) (u : String) :
    ((locks.filter fun l => !(decide (l.url = u))).any fun l => decide (l.url = u)) = false := by
  simp only [List.any_eq_false]
  intro l hl
  have := (List.mem_filter.mp hl).2
  simpa using this

/-- C3: after `mark_done`/`mark_error` on a queued url, no lock remains
for it (even if none existed before), and as long as no repair
operation resets the url to pending, no later `reserve_next` returns
it. -/
theorem mark_outcome_releases (s s' : DBState) (u : String) (ops : List Op)
    (hrow : hasQueueRow s u = true)
    (hs' : (∃ ts, s' = mark_done s u ts) ∨ ∃ e ts, s' = mark_error s u e ts)
    (hops : noRevive u s' ops = true) :
    lockExists s' u = false ∧
    ∀ ts2 k, (reserve_next (applyOps s' ops) ts2).1 ≠ some (u, k) := by
  have hinv : lockExists s' u = false ∧ hasQueueRow s' u = true ∧
      hasPendingRow s' u = false := by
    rcases hs' with ⟨ts, he⟩ | ⟨e, ts, he⟩ <;> subst he
    · refine ⟨lock_filter_self_gone s.locks u, ?_⟩
      unfold hasQueueRow at hrow
      unfold hasQueueRow hasPendingRow
      rw [mark_done_queue]
      have hf : ∀ r : QueueRow,
          ((if r.url = u then { r with status := Status.done, updatedAt := ts } else r) :
            QueueRow).url = r.url := by
        intro r
        by_cases h : r.url = u <;> simp [h]
      refine ⟨by rw [any_url_map _ _ hf]; exact hrow, ?_⟩
      apply pendingRow_map_false _ _ _ hf
      intro r hr hu
      rw [if_pos hu]
      simp
    · refine ⟨lock_filter_self_gone s.locks u, ?_⟩
      unfold hasQueueRow at hrow
      unfold hasQueueRow hasPendingRow
      rw [mark_error_queue]
      have hf : ∀ r : QueueRow,
          ((if r.url = u then
              { r with status := Status.error, tries := r.tries + 1,
                       lastError := some (pyTake e 1000), updatedAt := ts }
            else r) : QueueRow).url = r.url := by
        intro r
        by_cases h : r.url = u <;> simp [h]
      refine ⟨by rw [any_url_map _ _ hf]; exact hrow, ?_⟩
      apply pendingRow_map_false _ _ _ hf
      intro r hr hu
      rw [if_pos hu]
      simp
  refine ⟨hinv.1, fun ts2 k => ?_⟩
  have hrun := notPending_run u ops s' hinv.2.1 hinv.2.2 hops
  exact reserve_next_not_pending _ ts2 u hrun.2 k

/-! ## C5: status transition discipline -/

/-- The status of `u`'s queue row, if any. -/
def statusOf (s : DBState) (u : String) : Option Status :=
  (s.queue.find? fun r => decide (r.url = u)).map fun r => r.status

/-- Both passes of the repair tool. -/
def isRepairOp : Op → Bool
  | Op.repairCorrupt _ => true
  | Op.repairErrors _ => true
  | _ => false

/-- The repair tool's delete-and-requeue pass for corrupt results. -/
def isCorruptRepair : Op → Bool
  | Op.repairCorrupt _ => true
  | _ => false

/-- How the system calls the store: `mark_done`/`mark_error` are issued
only for a url the worker has just reserved, hence one whose row is
pending (every call site in `parse.py` records the outcome of a freshly
reserved url). -/
def WellCalled (s : DBState) : Op → Prop
  | Op.markDone url _ => statusOf s url = some Status.pending
  | Op.markError url _ _ => statusOf s url = some Status.pending
  | _ => True

theorem find?_url_map (l : List QueueRow) (f : QueueRow → QueueRow)
    (hf : ∀ r, (f r).url = r.url) (u : String) :
    ((l.map f).find? fun r => decide (r.url = u)) =
      (l.find? fun r => decide (r.url = u)).map f := by
  induction l with
  | nil => rfl
  | cons x xs ih =>
    simp only [List.map_cons, List.find?_cons]
    have hfx : (decide ((f x).url = u)) = (decide (x.url = u)) := by simp [hf]
    rw [hfx]
    cases h : decide (x.url = u) <;> simp [h, ih]

theorem statusOf_congr {s t : DBState} (h : t.queue = s.queue) (u : String) :
    statusOf t u = statusOf s u := by
  unfold statusOf
  rw [h]

theorem statusOf_map_state (s t : DBState) (f : QueueRow → QueueRow)
    (hq : t.queue = s.queue.map f) (hf : ∀ r, (f r).url = r.url) (u : String) :
    statusOf t u =
      (s.queue.find? fun r => decide (r.url = u)).map fun r => (f r).status := by
  unfold statusOf
  rw [hq, find?_url_map _ _ hf, Option.map_map]
  rfl

theorem find?_some_url {l : List QueueRow} {u : String} {r : QueueRow}
    (h : l.find? (fun r => decide (r.url = u)) = some r) : r.url = u := by
  have := List.find?_some h
  simpa using this

theorem ensurePendingOne_statusOf (s : DBState) (w : String) (ts : Rat) (u : String) :
    statusOf (ensurePendingOne s w ts) u = statusOf s u ∨
      statusOf (ensurePendingOne s w ts) u = some Status.pending := by
  have hmapfind := find?_url_map s.queue (ensureRowFn w ts) (ensureRowFn_url w ts) u
  unfold statusOf
  rw [ensurePendingOne_queue]
  by_cases hb : (s.queue.map (ensureRowFn w ts)).any (fun r => decide (r.url = w))
  · rw [if_pos hb, hmapfind]
    cases hfind : s.queue.find? (fun r => decide (r.url = u)) with
    | none => exact Or.inl rfl
    | some r =>
      have hgoal : some ((ensureRowFn w ts r).status) = some r.status ∨
          some ((ensureRowFn w ts r).status) = some Status.pending := by
        unfold ensureRowFn
        by_cases hcw : decide (r.url = w) && !(decide (r.status = Status.pending))
        · rw [if_pos hcw]
          exact Or.inr rfl
        · rw [if_neg hcw]
          exact Or.inl rfl
      exact hgoal
  · rw [if_neg hb, List.find?_append, hmapfind]
    cases hfind : s.queue.find? (fun r => decide (r.url = u)) with
    | none =>
      by_cases hu : w = u
      · rw [List.find?_cons_of_pos _ (by simp [hu])]
        exact Or.inr rfl
      · rw [List.find?_cons_of_neg _ (by simp [hu])]
        exact Or.inl rfl
    | some r =>
      have hgoal : some ((ensureRowFn w ts r).status) = some r.status ∨
          some ((ensureRowFn w ts r).status) = some Status.pending := by
        unfold ensureRowFn
        by_cases hcw : decide (r.url = w) && !(decide (r.status = Status.pending))
        · rw [if_pos hcw]
          exact Or.inr rfl
        · rw [if_neg hcw]
          exact Or.inl rfl
      exact hgoal

theorem ensure_fold_statusOf (urls : List String) (u : String) (ts : Rat) :
    ∀ s : DBState,
      statusOf (ensure_queue_pending_for_products s urls ts) u = statusOf s u ∨
        statusOf (ensure_queue_pending_for_products s urls ts) u = some Status.pending := by
  induction urls with
  | nil => intro s; exact Or.inl rfl
  | cons w rest ih =>
    intro s
    unfold ensure_queue_pending_for_products at ih ⊢
    simp only [List.foldl_cons]
    rcases ih (ensurePendingOne s w ts) with h | h
    · rcases ensurePendingOne_statusOf s w ts u with h2 | h2
      · exact Or.inl (h.trans h2)
      · exact Or.inr (h.trans h2)
    · exact Or.inr h

/-- C5: each store operation, called the way the system calls it, moves
a url's status only along the allowed edges: unchanged, created as
pending, pending→done, pending→error, error→pending only by a repair
pass, done→pending only by the corrupt-result repair pass. -/
theorem status_transition_discipline (s : DBState) (op : Op) (u : String)
    (hw : WellCalled s op) :
    statusOf (applyOp s op) u = statusOf s u
    ∨ (statusOf s u = none ∧ statusOf (applyOp s op) u = some Status.pending)
    ∨ (statusOf s u = some Status.pending ∧ statusOf (applyOp s op) u = some Status.done)
    ∨ (statusOf s u = some Status.pending ∧ statusOf (applyOp s op) u = some Status.error)
    ∨ (isRepairOp op = true ∧ statusOf s u = some Status.error ∧
        statusOf (applyOp s op) u = some Status.pending)
    ∨ (isCorruptRepair op = true ∧ statusOf s u = some Status.done ∧
        statusOf (applyOp s op) u = some Status.pending) := by
  cases op with
  | seedCatalog url ts =>
    rw [applyOp]
    by_cases hc : hasQueueRow s url
    · refine Or.inl (statusOf_congr ?_ u)
      rw [seed_catalog_queue, if_pos hc]
    · unfold statusOf
      rw [seed_catalog_queue, if_neg hc, List.find?_append]
      cases hfind : s.queue.find? (fun r => decide (r.url = u)) with
      | none =>
        by_cases hu : url = u
        · rw [List.find?_cons_of_pos _ (by simp [hu])]
          exact Or.inr (Or.inl ⟨rfl, rfl⟩)
        · rw [List.find?_cons_of_neg _ (by simp [hu])]
          exact Or.inl rfl
      | some r => exact Or.inl rfl
  | upsertQueue url k ts =>
    rw [applyOp]
    by_cases hc : hasQueueRow s url
    · refine Or.inl (statusOf_congr ?_ u)
      rw [upsert_queue_queue, if_pos hc]
    · unfold statusOf
      rw [upsert_queue_queue, if_neg hc, List.find?_append]
      cases hfind : s.queue.find? (fun r => decide (r.url = u)) with
      | none =>
        by_cases hu : url = u
        · rw [List.find?_cons_of_pos _ (by simp [hu])]
          exact Or.inr (Or.inl ⟨rfl, rfl⟩)
        · rw [List.find?_cons_of_neg _ (by simp [hu])]
          exact Or.inl rfl
      | some r => exact Or.inl rfl
  | markDone url ts =>
    rw [applyOp]
    have hf : ∀ r : QueueRow,
        ((if r.url = url then { r with status := Status.done, updatedAt := ts } else r) :
          QueueRow).url = r.url := by
      intro r
      by_cases h : r.url = url <;> simp [h]
    rw [statusOf_map_state s _ _ (mark_done_queue s url ts) hf u]
    unfold statusOf
    cases hfind : s.queue.find? (fun r => decide (r.url = u)) with
    | none => exact Or.inl rfl
    | some r =>
      have hru := find?_some_url hfind
      by_cases hc : u = url
      · subst hc
        have hw2 : statusOf s u = some Status.pending := hw
        have hrp : r.status = Status.pending := by
          unfold statusOf at hw2
          rw [hfind] at hw2
          simpa using hw2
        refine Or.inr (Or.inr (Or.inl ⟨?_, ?_⟩))
        · show some r.status = some Status.pending
          rw [hrp]
        · show some ((if r.url = u then
              { r with status := Status.done, updatedAt := ts } else r) : QueueRow).status =
            some Status.done
          rw [if_pos hru]
      · refine Or.inl ?_
        show some ((if r.url = url then
            { r with status := Status.done, updatedAt := ts } else r) : QueueRow).status =
          some r.status
        rw [if_neg (by rw [hru]; exact fun h => hc h)]
  | markError url err ts =>
    rw [applyOp]
    have hf : ∀ r : QueueRow,
        ((if r.url = url then
            { r with status := Status.error, tries := r.tries + 1,
                     lastError := some (pyTake err 1000), updatedAt := ts }
          else r) : QueueRow).url = r.url := by
      intro r
      by_cases h : r.url = url <;> simp [h]
    rw [statusOf_map_state s _ _ (mark_error_queue s url err ts) hf u]
    unfold statusOf
    cases hfind : s.queue.find? (fun r => decide (r.url = u)) with
    | none => exact Or.inl rfl
    | some r =>
      have hru := find?_some_url hfind
      by_cases hc : u = url
      · subst hc
        have hw2 : statusOf s u = some Status.pending := hw
        have hrp : r.status = Status.pending := by
          unfold statusOf at hw2
          rw [hfind] at hw2
          simpa using hw2
        refine Or.inr (Or.inr (Or.inr (Or.inl ⟨?_, ?_⟩)))
        · show some r.status = some Status.pending
          rw [hrp]
        · show some ((if r.url = u then
              { r with status := Status.error, tries := r.tries + 1,
                       lastError := some (pyTake err 1000), updatedAt := ts }
            else r) : QueueRow).status = some Status.error
          rw [if_pos hru]
      · refine Or.inl ?_
        show some ((if r.url = url then
            { r with status := Status.error, tries := r.tries + 1,
                     lastError := some (pyTake err 1000), updatedAt := ts }
          else r) : QueueRow).status = some r.status
        rw [if_neg (by rw [hru]; exact fun h => hc h)]
  | reserveNext ts =>
    rw [applyOp]
    exact Or.inl (statusOf_congr (reserve_next_queue s ts) u)
  | insertCategory url name ts =>
    rw [applyOp]
    exact Or.inl (statusOf_congr (insert_category_queue s url name ts) u)
  | insertDiscovery url title categoryUrl ts =>
    rw [applyOp]
    exact Or.inl (statusOf_congr (insert_discovery_queue s url title categoryUrl ts) u)
  | upsertProduct d ts =>
    rw [applyOp]
    exact Or.inl (statusOf_congr (upsert_product_queue s d ts) u)
  | repairCorrupt ts =>
    rw [applyOp]
    unfold repairCorruptPass
    have hdel : statusOf (delete_products s (find_empty_products s)) u = statusOf s u := rfl
    rcases ensure_fold_statusOf (find_empty_products s) u ts
        (delete_products s (find_empty_products s)) with h | h
    · exact Or.inl (h.trans hdel)
    · cases hbefore : statusOf s u with
      | none => exact Or.inr (Or.inl ⟨rfl, h⟩)
      | some st =>
        cases st with
        | pending => exact Or.inl h
        | done =>
          exact Or.inr (Or.inr (Or.inr (Or.inr (Or.inr ⟨rfl, rfl, h⟩))))
        | error =>
          exact Or.inr (Or.inr (Or.inr (Or.inr (Or.inl ⟨rfl, rfl, h⟩))))
  | repairErrors ts =>
    rw [applyOp]
    have hf : ∀ r : QueueRow,
        ((if r.status = Status.error then
            { r with status := Status.pending, tries := 0, lastError := none, updatedAt := ts }
          else r) : QueueRow).url = r.url := by
      intro r
      by_cases h : r.status = Status.error <;> simp [h]
    rw [statusOf_map_state s _ _ (requeue_queue s ts) hf u]
    unfold statusOf
    cases hfind : s.queue.find? (fun r => decide (r.url = u)) with
    | none => exact Or.inl rfl
    | some r =>
      cases hst : r.status with
      | pending =>
        refine Or.inl ?_
        show some ((if r.status = Status.error then
            { r with status := Status.pending, tries := 0, lastError := none, updatedAt := ts }
          else r) : QueueRow).status = some r.status
        rw [if_neg (by rw [hst]; intro h; cases h)]
      | done =>
        refine Or.inl ?_
        show some ((if r.status = Status.error then
            { r with status := Status.pending, tries := 0, lastError := none, updatedAt := ts }
          else r) : QueueRow).status = some r.status
        rw [if_neg (by rw [hst]; intro h; cases h)]
      | error =>
        refine Or.inr (Or.inr (Or.inr (Or.inr (Or.inl ⟨rfl, ?_, ?_⟩))))
        · show some r.status = some Status.error
          rw [hst]
        · show some ((if r.status = Status.error then
              { r with status := Status.pending, tries := 0, lastError := none, updatedAt := ts }
            else r) : QueueRow).status = some Status.pending
          rw [if_pos hst]

/-! ## C9: upsertResult merge -/

/-- C9: two `upsert_product` calls for the same url (starting with no
row for it) leave exactly the second call's values in every non-key
column, except that discovered_at still holds the first call's value
while scraped_at holds the second call's. -/
theorem upsert_product_absent (s : DBState) (d : ProductData) (ts : Rat)
    (h : product_exists s d.url = false) :
    upsert_product s d ts = { s with products := s.products ++ [insertedProductRow d ts] } := by
  unfold upsert_product
  rw [if_neg (by simp [h])]

theorem upsert_product_present (s : DBState) (d : ProductData) (ts : Rat)
    (h : product_exists s d.url = true) :
    upsert_product s d ts =
      { s with products := s.products.map fun r =>
          if r.url = d.url then { insertedProductRow d ts with discoveredAt := r.discoveredAt }
          else r } := by
  unfold upsert_product
  rw [if_pos h]

/-- C9: two `upsert_product` calls for the same url (starting with no
row for it) leave exactly the second call's values in every non-key
column, except that discovered_at still holds the first call's value
while scraped_at holds the second call's. -/
theorem upsert_product_merge (s : DBState) (d1 d2 : ProductData) (ts1 ts2 : Rat)
    (h0 : product_exists s d1.url = false) (h2 : d2.url = d1.url) :
    productRowFor (upsert_product (upsert_product s d1 ts1) d2 ts2) d1.url =
      some { insertedProductRow d2 ts2 with
             url := d1.url, discoveredAt := pyOr d1.discoveredAt ts1 } := by
  have hnone : ∀ r ∈ s.products, ¬(r.url = d1.url) := by
    intro r hr
    have := List.any_eq_false.mp h0 r hr
    simpa using this
  rw [upsert_product_absent s d1 ts1 h0]
  have hurl1 : (insertedProductRow d1 ts1).url = d2.url := by
    simp [insertedProductRow, h2]
  have hex : product_exists
      { s with products := s.products ++ [insertedProductRow d1 ts1] } d2.url = true := by
    unfold product_exists
    rw [List.any_append]
    simp [hurl1]
  rw [upsert_product_present _ d2 ts2 hex]
  unfold productRowFor
  simp only [List.map_append, List.map_cons, List.map_nil]
  rw [List.find?_append]
  have hfirst : (List.find? (fun r => decide (r.url = d1.url))
      ((s.products.map fun r =>
        if r.url = d2.url then
          { insertedProductRow d2 ts2 with discoveredAt := r.discoveredAt } else r))) = none := by
    rw [List.find?_eq_none]
    intro x hx
    simp only [List.mem_map] at hx
    obtain ⟨r, hr, hxr⟩ := hx
    rw [if_neg (by rw [h2]; exact hnone r hr)] at hxr
    subst hxr
    simpa using hnone r hr
  rw [hfirst]
  simp only [Option.none_or]
  rw [if_pos hurl1]
  rw [List.find?_cons_of_pos _ (by simp [insertedProductRow, h2])]
  simp [insertedProductRow, h2]

/-! ## C10: canonicalize_url (parse.py)

`canonicalize_url` drops the fragment, reassembles the URL and strips
trailing slashes unless the path is exactly `/`.  The splitter and
joiner are modelled on CPython 3.11 `urllib.parse.urlsplit` /
`urlunsplit` (WHATWG C0/space lstrip, tab/CR/LF removal, scheme
detection, `_splitnetloc`, bracket validation via
`_check_bracketed_host` with the `ipaddress` IPv6/IPv4 parsers and the
IPvFuture regular expression, fragment then query split).  The one
check not modelled is the NFKC `_checknetloc`: it is treated as always
passing.  That check returns immediately on every ASCII netloc and can
only raise on exotic non-ASCII compatibility characters, so treating it
as passing enlarges the modelled domain; on every input the real
`urlsplit` accepts, the model computes the same result. -/

/-- `_WHATWG_C0_CONTROL_OR_SPACE`: code points 0x00–0x20. -/
def isC0OrSpace (c : Char) : Bool := c.toNat ≤ 32

/-- `_UNSAFE_URL_BYTES_TO_REMOVE`: tab, CR, LF. -/
def isUnsafeByte (c : Char) : Bool := c = '\t' || c = '\r' || c = '\n'

/-- `scheme_chars`: ASCII letters, digits, `+`, `-`, `.`. -/
def isSchemeChar (c : Char) : Bool :=
  c.isAlpha || c.isDigit || c = '+' || c = '-' || c = '.'

/-- The characters `_splitnetloc` stops at. -/
def isNetDelim (c : Char) : Bool := c = '/' || c = '?' || c = '#'

/-- `url.lstrip(_WHATWG_C0_CONTROL_OR_SPACE)` followed by removal of
the unsafe bytes. -/
def preprocess (l : List Char) : List Char :=
  (l.dropWhile isC0OrSpace).filter fun c => !(isUnsafeByte c)

/-- `url.find(':')`: the index of the first colon, if any. -/
def findColon : List Char → Option Nat
  | [] => none
  | c :: rest => if c = ':' then some 0 else (findColon rest).map (· + 1)

/-- The scheme-detection step of `urlsplit`: the text before the first
`:` becomes the (lowercased) scheme when it is nonempty, starts with an
ASCII letter and consists of scheme characters. -/
def splitScheme (l : List Char) : List Char × List Char :=
  match findColon l with
  | none => ([], l)
  | some i =>
    if 0 < i ∧ (l.headD ' ').isAlpha = true ∧ (l.take i).all isSchemeChar = true then
      ((l.take i).map Char.toLower, l.drop (i + 1))
    else ([], l)

/-- `url.split(ch, 1)` when `ch in url`, else `(url, '')`. -/
def breakOn (ch : Char) (l : List Char) : List Char × List Char :=
  (l.takeWhile (fun c => !(c = ch)), (l.dropWhile (fun c => !(c = ch))).drop 1)

/-- Python `str.split(sep)` for a one-character separator: split at
every occurrence, producing one part more than there are separators. -/
def splitAll (ch : Char) : List Char → List (List Char)
  | [] => [[]]
  | c :: rest =>
    match splitAll ch rest with
    | [] => if c = ch then [[], []] else [[c]]
    | p :: ps => if c = ch then [] :: p :: ps else (c :: p) :: ps

/-- `str.partition(ch)[0]`: everything before the first occurrence
(the whole string when the separator is absent). -/
def beforeFirst (ch : Char) (l : List Char) : List Char :=
  l.takeWhile fun c => !(c = ch)

/-- `str.partition(ch)[2]`: everything after the first occurrence
(empty when the separator is absent). -/
def afterFirst (ch : Char) (l : List Char) : List Char :=
  (l.dropWhile fun c => !(c = ch)).drop 1

/-- `_HEX_DIGITS`: `0123456789ABCDEFabcdef`. -/
def isHexDigCh (c : Char) : Bool :=
  c.isDigit || ('a' ≤ c && c ≤ 'f') || ('A' ≤ c && c ≤ 'F')

/-- The decimal value of an ASCII-digit string. -/
def decVal (s : List Char) : Nat := s.foldl (fun a c => a * 10 + (c.toNat - 48)) 0

/-- `ipaddress._BaseV4._parse_octet` succeeds: nonempty, ASCII decimal
digits only, at most three characters, no leading zero except `"0"`
itself, value at most 255. -/
def octetOk (s : List Char) : Bool :=
  !s.isEmpty && s.all Char.isDigit && decide (s.length ≤ 3) &&
    !(decide (¬(s = ['0']) ∧ s.head? = some '0')) && decide (decVal s ≤ 255)

/-- `ipaddress.IPv4Address(str)` succeeds: no `/`, nonempty, exactly
four octets, each one valid. -/
def ipv4Ok (s : List Char) : Bool :=
  !(s.contains '/') && !s.isEmpty &&
    (let octets := splitAll '.' s
     decide (octets.length = 4) && octets.all octetOk)

/-- `ipaddress._BaseV6._parse_hextet` succeeds: hex digits only, at
most four characters, and nonempty (`int('', 16)` raises). -/
def hextetOk (s : List Char) : Bool :=
  s.all isHexDigCh && decide (s.length ≤ 4) && !s.isEmpty

/-- The index of the first empty part, if any. -/
def firstEmptyIdx : List (List Char) → Option Nat
  | [] => none
  | p :: ps => if p.isEmpty then some 0 else (firstEmptyIdx ps).map (· + 1)

/-- `ipaddress._BaseV6._ip_int_from_string` succeeds: at least three
colon-separated parts; an IPv4-style dotted tail is validated and
replaced by two hextets; at most nine parts; at most one `::`; a
leading or trailing colon only as part of `::`; with `::` fewer than
eight explicit hextets, without it exactly eight; every explicit
hextet valid. -/
def ipv6CoreOk (s : List Char) : Bool :=
  if s.isEmpty then false
  else
    let parts0 := splitAll ':' s
    if parts0.length < 3 then false
    else if (parts0.getLastD []).contains '.' && !(ipv4Ok (parts0.getLastD [])) then
      false
    else
      let parts := if (parts0.getLastD []).contains '.' then
        parts0.dropLast ++ [['0'], ['0']] else parts0
      if 9 < parts.length then false
      else
        let interior := (parts.drop 1).dropLast
        if 1 < (interior.filter fun p => p.isEmpty).length then false
        else
          match firstEmptyIdx interior with
          | some j =>
            let skip := j + 1
            let hi := if (parts.headD [' ']).isEmpty then skip - 1 else skip
            let lo := if (parts.getLastD [' ']).isEmpty then
              parts.length - skip - 2 else parts.length - skip - 1
            if (parts.headD [' ']).isEmpty && !(decide (hi = 0)) then false
            else if (parts.getLastD [' ']).isEmpty && !(decide (lo = 0)) then false
            else if 8 ≤ hi + lo then false
            else (parts.take hi).all hextetOk &&
              (parts.drop (parts.length - lo)).all hextetOk
          | none =>
            decide (parts.length = 8) && !(parts.headD [' ']).isEmpty &&
              !(parts.getLastD [' ']).isEmpty && parts.all hextetOk

/-- `ipaddress.IPv6Address(str)` succeeds: no `/`, an optional
`%zone_id` (nonempty, no further `%`) split off first, then the core
address parses. -/
def ipv6Ok (s : List Char) : Bool :=
  if s.contains '/' then false
  else if s.contains '%' then
    (let scope := afterFirst '%' s
     !(scope.isEmpty || scope.contains '%') && ipv6CoreOk (beforeFirst '%' s))
  else ipv6CoreOk s

/-- The IPvFuture regular expression of `_check_bracketed_host`,
`v[a-fA-F0-9]+\..+` anchored at both ends (`.` excludes the newline):
`v`, a nonempty hex run, a dot, a nonempty newline-free rest. -/
def vFutureOk (rest : List Char) : Bool :=
  let run := rest.takeWhile isHexDigCh
  let after := rest.dropWhile isHexDigCh
  !run.isEmpty && decide (after.head? = some '.') &&
    !((after.drop 1).isEmpty) && (after.drop 1).all fun c => !(c = '\n')

/-- `_check_bracketed_host(hostname)` passes: a host starting with `v`
must match the IPvFuture shape; otherwise `ipaddress.ip_address` must
produce an IPv6 address (an IPv4 address in brackets raises). -/
def bracketedHostOk (h : List Char) : Bool :=
  match h with
  | 'v' :: rest => vFutureOk rest
  | _ => !(ipv4Ok h) && ipv6Ok h

/-- The netloc validation of `urlsplit`: a bracket without its partner
raises `Invalid IPv6 URL`; with both brackets present the text between
the first `[` and the next `]` must pass `_check_bracketed_host`.  The
NFKC `_checknetloc` is modelled as always passing (it returns at once
on every ASCII netloc, so this only enlarges the accepted domain). -/
def netlocOk (n : List Char) : Bool :=
  if (n.contains '[' && !(n.contains ']')) ||
      (n.contains ']' && !(n.contains '[')) then false
  else if n.contains '[' && n.contains ']' then
    bracketedHostOk (beforeFirst ']' (afterFirst '[' n))
  else true

/-- The result of `urlsplit` (fragment included). -/
structure SplitParts where
  scheme : List Char
  netloc : List Char
  path : List Char
  query : List Char
  fragment : List Char
deriving DecidableEq, Repr

/-- `urlsplit(url)`: preprocess, detect the scheme, take the netloc
after `//` up to the first `/?#` (`_splitnetloc`), validate its
brackets, split off the fragment and then the query.  `none` exactly
where Python raises (the NFKC `_checknetloc` treated as passing). -/
def urlsplitM (l : List Char) : Option SplitParts :=
  let l1 := preprocess l
  let sp := splitScheme l1
  let scheme := sp.1
  let rest := sp.2
  if rest.take 2 = ['/', '/'] then
    let netloc := (rest.drop 2).takeWhile fun c => !(isNetDelim c)
    let rest2 := (rest.drop 2).dropWhile fun c => !(isNetDelim c)
    if netlocOk netloc then
      let bf := breakOn '#' rest2
      let pq := breakOn '?' bf.1
      some ⟨scheme, netloc, pq.1, pq.2, bf.2⟩
    else none
  else
    let bf := breakOn '#' rest
    let pq := breakOn '?' bf.1
    some ⟨scheme, [], pq.1, pq.2, bf.2⟩

/-- `uses_netloc` as of CPython 3.11. -/
def usesNetloc : List (List Char) :=
  (["", "ftp", "http", "gopher", "nntp", "telnet", "imap", "wais", "file", "mms",
    "https", "shttp", "snews", "prospero", "rtsp", "rtsps", "rtspu", "rsync", "svn",
    "svn+ssh", "sftp", "nfs", "git", "git+ssh", "ws", "wss"].map String.toList)

/-- Does `urlunsplit` emit the `//` marker for these parts? -/
def emitsNetloc (p : SplitParts) : Bool :=
  !p.netloc.isEmpty ||
    (!p.scheme.isEmpty && usesNetloc.contains p.scheme &&
      !(decide (p.path.take 2 = ['/', '/'])))

/-- `if url and url[:1] != '/': url = '/' + url` — the path as it is
appended after the netloc marker. -/
def pathAdj (p : List Char) : List Char :=
  if !p.isEmpty && !(decide (p.head? = some '/')) then '/' :: p else p

/-- `urlunsplit(components)` as of CPython 3.11. -/
def urlunsplitM (p : SplitParts) : List Char :=
  let url1 :=
    if emitsNetloc p then '/' :: '/' :: (p.netloc ++ pathAdj p.path) else p.path
  let url2 := if !p.scheme.isEmpty then p.scheme ++ ':' :: url1 else url1
  let url3 := if !p.query.isEmpty then url2 ++ '?' :: p.query else url2
  if !p.fragment.isEmpty then url3 ++ '#' :: p.fragment else url3

/-- Python `clean.rstrip("/")`. -/
def rstripSlashes (l : List Char) : List Char :=
  (l.reverse.dropWhile fun c => c = '/').reverse

/-- Python `clean.endswith("/")`. -/
def endsWithSlash (l : List Char) : Bool := l.getLast? = some '/'

/-- `canonicalize_url` from `parse.py`: split, blank the fragment,
rejoin, and strip trailing slashes unless the path component is exactly
`/`.  `none` where the splitter raises. -/
def canonicalize_url (u : String) : Option String :=
  match urlsplitM u.toList with
  | none => none
  | some p =>
    let clean := urlunsplitM { p with fragment := [] }
    some (String.mk
      (if endsWithSlash clean && !(decide (p.path = ['/'])) then rstripSlashes clean
       else clean))

/-- C10 counterexample: `canonicalize_url` is not idempotent.  A query
consisting of a slash is eaten by `rstrip("/")`, leaving a bare `?`
that the next pass drops: `"http://a?/"` ↦ `"http://a?"` ↦
`"http://a"`.  And with an empty netloc and a path starting `//`, the
re-parse of the joined URL swallows two leading slashes as a netloc
marker: `"/////a"` ↦ `"///a"` ↦ `"/a"`. -/
theorem canonicalize_url_not_idempotent :
    (canonicalize_url "http://a?/" = some "http://a?" ∧
     canonicalize_url "http://a?" = some "http://a" ∧
     (canonicalize_url "http://a?/").bind canonicalize_url ≠
       canonicalize_url "http://a?/") ∧
    (canonicalize_url "/////a" = some "///a" ∧
     canonicalize_url "///a" = some "/a" ∧
     (canonicalize_url "/////a").bind canonicalize_url ≠
       canonicalize_url "/////a") := by
  decide

/-! ### Support lemmas for the idempotence proof -/

theorem takeWhile_all {α} (p : α → Bool) (l : List α) (h : ∀ a ∈ l, p a = true) :
    l.takeWhile p = l := by
  induction l with
  | nil => rfl
  | cons x xs ih =>
    have hx := h x (List.mem_cons_self x xs)
    have hxs := ih fun a ha => h a (List.mem_cons_of_mem x ha)
    simp [List.takeWhile_cons, hx, hxs]

theorem dropWhile_all {α} (p : α → Bool) (l : List α) (h : ∀ a ∈ l, p a = true) :
    l.dropWhile p = [] := by
  induction l with
  | nil => rfl
  | cons x xs ih =>
    have hx := h x (List.mem_cons_self x xs)
    have hxs := ih fun a ha => h a (List.mem_cons_of_mem x ha)
    simp [List.dropWhile_cons, hx, hxs]

theorem takeWhile_append_cons {α} (p : α → Bool) (a : List α) (x : α) (b : List α)
    (ha : ∀ c ∈ a, p c = true) (hx : p x = false) :
    (a ++ x :: b).takeWhile p = a ∧ (a ++ x :: b).dropWhile p = x :: b := by
  induction a with
  | nil =>
    constructor
    · simp [List.takeWhile_cons, hx]
    · simp [List.dropWhile_cons, hx]
  | cons y ys ih =>
    have hy : p y = true := ha y (List.mem_cons_self y ys)
    have ih2 := ih fun c hc => ha c (List.mem_cons_of_mem y hc)
    constructor
    · simp [List.takeWhile_cons, hy, ih2.1]
    · simp [List.dropWhile_cons, hy, ih2.2]

theorem dropWhile_append_of_ne {α} (p : α → Bool) (x y : List α)
    (h : x.dropWhile p ≠ []) : (x ++ y).dropWhile p = x.dropWhile p ++ y := by
  induction x with
  | nil => exact absurd rfl h
  | cons c cs ih =>
    simp only [List.cons_append, List.dropWhile_cons] at h ⊢
    cases hc : p c with
    | true =>
      simp only [hc, if_true] at h ⊢
      exact ih h
    | false =>
      simp [hc] at h ⊢

theorem dropWhile_append_of_nil {α} (p : α → Bool) (x y : List α)
    (h : x.dropWhile p = []) : (x ++ y).dropWhile p = y.dropWhile p := by
  induction x with
  | nil => rfl
  | cons c cs ih =>
    simp only [List.cons_append, List.dropWhile_cons] at h ⊢
    cases hc : p c with
    | true =>
      simp only [hc, if_true] at h ⊢
      exact ih h
    | false =>
      simp only [hc] at h
      cases h

theorem breakOn_not_contains (ch : Char) (l : List Char)
    (h : ∀ c ∈ l, ¬(c = ch)) : breakOn ch l = (l, []) := by
  unfold breakOn
  have hall : ∀ c ∈ l, (!(decide (c = ch))) = true := by
    intro c hc
    simp [h c hc]
  rw [takeWhile_all _ _ hall, dropWhile_all _ _ hall]
  rfl

theorem breakOn_append (ch : Char) (a b : List Char)
    (ha : ∀ c ∈ a, ¬(c = ch)) : breakOn ch (a ++ ch :: b) = (a, b) := by
  unfold breakOn
  have hall : ∀ c ∈ a, (!(decide (c = ch))) = true := by
    intro c hc
    simp [ha c hc]
  have hsplit := takeWhile_append_cons (fun c => !(decide (c = ch))) a ch b hall (by simp)
  rw [hsplit.1, hsplit.2]
  rfl

theorem preprocess_id (l : List Char)
    (hclean : ∀ c ∈ l, isUnsafeByte c = false)
    (hhead : ∀ h, l.head? = some h → isC0OrSpace h = false) : preprocess l = l := by
  unfold preprocess
  have hdrop : l.dropWhile isC0OrSpace = l := by
    cases l with
    | nil => rfl
    | cons c cs =>
      rw [List.dropWhile_cons, if_neg]
      rw [hhead c rfl]
      simp
  rw [hdrop]
  exact List.filter_eq_self.mpr fun a ha => by rw [hclean a ha]; rfl

/-! ### findColon and splitScheme lemmas -/

theorem findColon_append_cons (a b : List Char) (ha : ∀ c ∈ a, ¬(c = ':')) :
    findColon (a ++ ':' :: b) = some a.length := by
  induction a with
  | nil => simp [findColon]
  | cons y ys ih =>
    rw [List.cons_append]
    unfold findColon
    rw [if_neg (ha y (List.mem_cons_self y ys))]
    rw [ih fun c hc => ha c (List.mem_cons_of_mem y hc)]
    rfl

theorem findColon_not_contains (l : List Char) (h : ∀ c ∈ l, ¬(c = ':')) :
    findColon l = none := by
  induction l with
  | nil => rfl
  | cons y ys ih =>
    unfold findColon
    rw [if_neg (h y (List.mem_cons_self y ys))]
    rw [ih fun c hc => h c (List.mem_cons_of_mem y hc)]
    rfl

theorem findColon_extend (i : Nat) (x t : List Char)
    (h : findColon x = some i) : findColon (x ++ t) = some i := by
  induction x generalizing i with
  | nil => cases h
  | cons y ys ih =>
    rw [List.cons_append]
    unfold findColon at h ⊢
    by_cases hy : y = ':'
    · rw [if_pos hy] at h ⊢
      exact h
    · rw [if_neg hy] at h ⊢
      cases hx : findColon ys with
      | none => rw [hx] at h; cases h
      | some j =>
        rw [hx] at h
        rw [ih j hx]
        exact h

theorem findColon_lt_length (l : List Char) (i : Nat) (h : findColon l = some i) :
    i < l.length := by
  induction l generalizing i with
  | nil => cases h
  | cons y ys ih =>
    unfold findColon at h
    by_cases hy : y = ':'
    · rw [if_pos hy] at h
      simp only [Option.some.injEq] at h
      subst h
      simp
    · rw [if_neg hy] at h
      cases hx : findColon ys with
      | none => rw [hx] at h; cases h
      | some j =>
        rw [hx] at h
        rw [Option.map_some'] at h
        simp only [Option.some.injEq] at h
        subst h
        have := ih j hx
        simp only [List.length_cons]
        omega

/-- A scheme as pass one produces it: nonempty, all scheme characters,
already lowercase, ASCII-letter first. -/
def SchemeOK (s : List Char) : Prop :=
  s ≠ [] ∧ s.all isSchemeChar = true ∧ s.map Char.toLower = s ∧
    ∀ h, s.head? = some h → h.isAlpha = true

theorem isSchemeChar_not_colon (c : Char) (h : isSchemeChar c = true) : ¬(c = ':') := by
  intro he
  subst he
  exact absurd h (by decide)

theorem splitScheme_scheme (s t : List Char) (hs : SchemeOK s) :
    splitScheme (s ++ ':' :: t) = (s, t) := by
  obtain ⟨hne, hall, hlow, halpha⟩ := hs
  have hnc : ∀ c ∈ s, ¬(c = ':') := fun c hc =>
    isSchemeChar_not_colon c (List.all_eq_true.mp hall c hc)
  unfold splitScheme
  rw [findColon_append_cons s t hnc]
  have htake : (s ++ ':' :: t).take s.length = s := List.take_left s _
  have hdrop : (s ++ ':' :: t).drop (s.length + 1) = t := by
    have he : s ++ ':' :: t = (s ++ [':']) ++ t := by simp
    rw [he]
    exact List.drop_left' (by simp)
  show (if 0 < s.length ∧ ((s ++ ':' :: t).headD ' ').isAlpha = true ∧
      ((s ++ ':' :: t).take s.length).all isSchemeChar = true then
        (((s ++ ':' :: t).take s.length).map Char.toLower, (s ++ ':' :: t).drop (s.length + 1))
      else ([], s ++ ':' :: t)) = (s, t)
  rw [if_pos]
  · rw [htake, hdrop, hlow]
  · refine ⟨List.length_pos.mpr hne, ?_, by rw [htake]; exact hall⟩
    cases s with
    | nil => exact absurd rfl hne
    | cons c cs => exact halpha c rfl

theorem splitScheme_fail_head (l : List Char)
    (h : ∀ hd, l.head? = some hd → hd.isAlpha = false) : splitScheme l = ([], l) := by
  unfold splitScheme
  split
  · rfl
  · rw [if_neg]
    rintro ⟨h1, h2, h3⟩
    cases l with
    | nil => simp at h1 h2 h3 ⊢
    | cons c cs =>
      have hca := h c rfl
      rw [show (c :: cs).headD ' ' = c from rfl] at h2
      rw [hca] at h2
      cases h2

theorem splitScheme_fail_extend (c t : List Char)
    (hfail : splitScheme (c ++ t) = ([], c ++ t)) : splitScheme c = ([], c) := by
  unfold splitScheme
  split
  · rfl
  · rename_i i hf
    by_cases hg : 0 < i ∧ (c.headD ' ').isAlpha = true ∧ (c.take i).all isSchemeChar = true
    · exfalso
      have hfc : findColon (c ++ t) = some i := findColon_extend i c t hf
      have hlt : i < c.length := findColon_lt_length c i hf
      have hne : c ≠ [] := by
        intro he
        subst he
        simp at hlt
      have hhead : (c ++ t).headD ' ' = c.headD ' ' := by
        cases c with
        | nil => exact absurd rfl hne
        | cons x xs => rfl
      have htk : (c ++ t).take i = c.take i :=
        List.take_append_of_le_length (Nat.le_of_lt hlt)
      have hsp : splitScheme (c ++ t) =
          (((c ++ t).take i).map Char.toLower, (c ++ t).drop (i + 1)) := by
        unfold splitScheme
        split
        · rename_i hnone
          rw [hfc] at hnone
          cases hnone
        · rename_i j hj
          rw [hfc] at hj
          injection hj with hj
          subst hj
          rw [if_pos ⟨hg.1, by rw [hhead]; exact hg.2.1, by rw [htk]; exact hg.2.2⟩]
      rw [hsp] at hfail
      have hfst := congrArg Prod.fst hfail
      simp only at hfst
      have hlen := congrArg List.length hfst
      rw [List.length_map, List.length_take] at hlen
      simp only [List.length_nil] at hlen
      rw [List.length_append] at hlen
      omega
    · rw [if_neg hg]

/-! ### rstrip lemmas -/

theorem dropWhile_head_false {α} (p : α → Bool) (c : α) (cs l : List α)
    (h : l.dropWhile p = c :: cs) : p c = false := by
  induction l with
  | nil => cases h
  | cons x xs ih =>
    rw [List.dropWhile_cons] at h
    by_cases hx : p x = true
    · rw [if_pos hx] at h
      exact ih h
    · rw [if_neg hx] at h
      cases h
      simpa using hx

theorem rstripSlashes_eq_self (l : List Char) (h : endsWithSlash l = false) :
    rstripSlashes l = l := by
  have h2 : ¬(l.getLast? = some '/') := by simpa [endsWithSlash] using h
  unfold rstripSlashes
  cases hr : l.reverse with
  | nil =>
    simp only [List.dropWhile_nil, List.reverse_nil]
    exact (List.reverse_eq_nil_iff.mp hr).symm
  | cons c cs =>
    have hc : ¬(c = '/') := by
      intro he
      apply h2
      rw [← List.head?_reverse, hr, he]
      rfl
    rw [List.dropWhile_cons, if_neg (by simpa using hc)]
    have hrev := congrArg List.reverse hr
    rw [List.reverse_reverse] at hrev
    exact hrev.symm

theorem rstripSlashes_append_of_ne (a b : List Char) (h : rstripSlashes b ≠ []) :
    rstripSlashes (a ++ b) = a ++ rstripSlashes b := by
  unfold rstripSlashes at h ⊢
  rw [List.reverse_append]
  rw [dropWhile_append_of_ne _ _ _ (fun hnil => h (by rw [hnil]; rfl))]
  rw [List.reverse_append, List.reverse_reverse]

theorem rstripSlashes_append_slashes (a b : List Char) (hb : ∀ c ∈ b, c = '/') :
    rstripSlashes (a ++ b) = rstripSlashes a := by
  unfold rstripSlashes
  rw [List.reverse_append]
  rw [dropWhile_append_of_nil]
  exact dropWhile_all _ _ fun c hc => by simp [hb c (List.mem_reverse.mp hc)]

theorem rstrip_no_trailing (l : List Char) :
    rstripSlashes l = [] ∨ endsWithSlash (rstripSlashes l) = false := by
  unfold rstripSlashes
  cases hd : l.reverse.dropWhile (fun c => decide (c = '/')) with
  | nil =>
    left
    rfl
  | cons c cs =>
    right
    have hc := dropWhile_head_false _ c cs _ hd
    unfold endsWithSlash
    rw [List.getLast?_reverse]
    simp only [List.head?_cons]
    simpa using hc

theorem rstrip_decomp (l : List Char) :
    ∃ t2, l = rstripSlashes l ++ t2 ∧ ∀ c ∈ t2, c = '/' := by
  refine ⟨(l.reverse.takeWhile fun c => decide (c = '/')).reverse, ?_, ?_⟩
  · unfold rstripSlashes
    conv_lhs => rw [← List.reverse_reverse l,
      ← List.takeWhile_append_dropWhile (fun c => decide (c = '/')) l.reverse]
    rw [List.reverse_append]
  · intro c hc
    rw [List.mem_reverse] at hc
    have := List.mem_takeWhile_imp hc
    simpa using this

theorem endsWithSlash_append (a b : List Char) (h : b ≠ []) :
    endsWithSlash (a ++ b) = endsWithSlash b := by
  unfold endsWithSlash
  rw [List.getLast?_append_of_ne_nil a h]

/-! ### Reassembling and re-splitting -/

theorem urlsplitM_eq (l : List Char) :
    urlsplitM l =
      if (splitScheme (preprocess l)).2.take 2 = ['/', '/'] then
        if netlocOk (((splitScheme (preprocess l)).2.drop 2).takeWhile
            fun c => !(isNetDelim c)) then
          some ⟨(splitScheme (preprocess l)).1,
                ((splitScheme (preprocess l)).2.drop 2).takeWhile (fun c => !(isNetDelim c)),
                (breakOn '?' (breakOn '#' (((splitScheme (preprocess l)).2.drop 2).dropWhile
                  fun c => !(isNetDelim c))).1).1,
                (breakOn '?' (breakOn '#' (((splitScheme (preprocess l)).2.drop 2).dropWhile
                  fun c => !(isNetDelim c))).1).2,
                (breakOn '#' (((splitScheme (preprocess l)).2.drop 2).dropWhile
                  fun c => !(isNetDelim c))).2⟩
        else none
      else
        some ⟨(splitScheme (preprocess l)).1, [],
              (breakOn '?' (breakOn '#' (splitScheme (preprocess l)).2).1).1,
              (breakOn '?' (breakOn '#' (splitScheme (preprocess l)).2).1).2,
              (breakOn '#' (splitScheme (preprocess l)).2).2⟩ := rfl

theorem urlunsplit_shape (s n p q : List Char) :
    urlunsplitM ⟨s, n, p, q, []⟩ =
      (if s = [] then [] else s ++ [':']) ++
      ((if emitsNetloc ⟨s, n, p, q, []⟩ then '/' :: '/' :: (n ++ pathAdj p) else p) ++
       (if q = [] then [] else '?' :: q)) := by
  unfold urlunsplitM
  by_cases hs : s = [] <;> by_cases hq : q = [] <;>
    by_cases he : emitsNetloc ⟨s, n, p, q, []⟩ = true <;>
      simp [hs, hq, he, List.isEmpty_iff, List.append_assoc]

theorem pathAdj_shape (p : List Char) :
    pathAdj p = [] ∧ p = [] ∨ (pathAdj p).head? = some '/' ∧
      ((pathAdj p).drop 1 = p ∨ pathAdj p = p) := by
  unfold pathAdj
  cases p with
  | nil => exact Or.inl ⟨rfl, rfl⟩
  | cons c cs =>
    by_cases hh : c = '/'
    · subst hh
      rw [if_neg (by simp)]
      exact Or.inr ⟨rfl, Or.inr rfl⟩
    · rw [if_pos (by simp [hh])]
      exact Or.inr ⟨rfl, Or.inl rfl⟩

/-- Splitting the string `urlunsplit` produced gives back the scheme,
the netloc and the query, with the path as adjusted by the join. -/
theorem resplit (s n p q : List Char)
    (hn : ∀ c ∈ n, isNetDelim c = false)
    (hnb : netlocOk n = true)
    (hph : ∀ c ∈ p, ¬(c = '#'))
    (hpq : ∀ c ∈ p, ¬(c = '?'))
    (hqh : ∀ c ∈ q, ¬(c = '#'))
    (hW6 : emitsNetloc ⟨s, n, p, q, []⟩ = false → ¬(p.take 2 = ['/', '/']))
    (hpre : preprocess (urlunsplitM ⟨s, n, p, q, []⟩) = urlunsplitM ⟨s, n, p, q, []⟩)
    (hsf : s = [] →
      splitScheme (urlunsplitM ⟨s, n, p, q, []⟩) = ([], urlunsplitM ⟨s, n, p, q, []⟩))
    (hsok : s ≠ [] → SchemeOK s) :
    urlsplitM (urlunsplitM ⟨s, n, p, q, []⟩) =
      some ⟨s, n, (if emitsNetloc ⟨s, n, p, q, []⟩ then pathAdj p else p), q, []⟩ := by
  have hnil : emitsNetloc ⟨s, n, p, q, []⟩ = false → n = [] := by
    intro he
    unfold emitsNetloc at he
    simp only [Bool.or_eq_false_iff] at he
    have := he.1
    simpa [List.isEmpty_iff] using this
  have hrest : splitScheme (preprocess (urlunsplitM ⟨s, n, p, q, []⟩)) =
      (s, (if emitsNetloc ⟨s, n, p, q, []⟩ then '/' :: '/' :: (n ++ pathAdj p) else p) ++
        (if q = [] then [] else '?' :: q)) := by
    rw [hpre]
    by_cases hs : s = []
    · rw [hsf hs]
      rw [urlunsplit_shape]
      rw [hs]
      simp
    · rw [urlunsplit_shape]
      rw [if_neg hs]
      have hassoc : (s ++ [':']) ++
          ((if emitsNetloc ⟨s, n, p, q, []⟩ then '/' :: '/' :: (n ++ pathAdj p) else p) ++
            (if q = [] then [] else '?' :: q)) =
          s ++ ':' :: ((if emitsNetloc ⟨s, n, p, q, []⟩ then '/' :: '/' :: (n ++ pathAdj p)
            else p) ++ (if q = [] then [] else '?' :: q)) := by
        simp [List.append_assoc]
      rw [hassoc]
      exact splitScheme_scheme _ _ (hsok hs)
  have h1 : (splitScheme (preprocess (urlunsplitM ⟨s, n, p, q, []⟩))).1 = s := by
    rw [hrest]
  rw [urlsplitM_eq, h1]
  by_cases he : emitsNetloc ⟨s, n, p, q, []⟩ = true
  · have h2 : (splitScheme (preprocess (urlunsplitM ⟨s, n, p, q, []⟩))).2 =
        ('/' :: '/' :: (n ++ pathAdj p)) ++ (if q = [] then [] else '?' :: q) := by
      rw [hrest, if_pos he]
    rw [h2, if_pos he]
    have hcond : (('/' :: '/' :: (n ++ pathAdj p)) ++
        (if q = [] then [] else '?' :: q)).take 2 = ['/', '/'] := rfl
    rw [if_pos hcond]
    have hdrop : (('/' :: '/' :: (n ++ pathAdj p)) ++
        (if q = [] then [] else '?' :: q)).drop 2 =
        n ++ (pathAdj p ++ (if q = [] then [] else '?' :: q)) := by
      rw [show (('/' :: '/' :: (n ++ pathAdj p)) ++
        (if q = [] then [] else '?' :: q)).drop 2 =
        (n ++ pathAdj p) ++ (if q = [] then [] else '?' :: q) from rfl,
        List.append_assoc]
    rw [hdrop]
    have hdelim : (pathAdj p ++ (if q = [] then [] else '?' :: q)) = [] ∨
        ∃ d rest, pathAdj p ++ (if q = [] then [] else '?' :: q) = d :: rest ∧
          isNetDelim d = true := by
      rcases pathAdj_shape p with ⟨hpa, _⟩ | ⟨hpa, _⟩
      · rw [hpa]
        by_cases hq : q = []
        · rw [if_pos hq]
          exact Or.inl rfl
        · rw [if_neg hq]
          exact Or.inr ⟨'?', q, rfl, by decide⟩
      · cases hpc : pathAdj p with
        | nil => rw [hpc] at hpa; cases hpa
        | cons d rest =>
          rw [hpc] at hpa
          simp only [List.head?_cons, Option.some.injEq] at hpa
          subst hpa
          exact Or.inr ⟨'/', rest ++ _, by rw [List.cons_append], by decide⟩
    have hnet : ∀ c ∈ n, (!(isNetDelim c)) = true := fun c hc => by rw [hn c hc]; rfl
    have htw : (n ++ (pathAdj p ++ (if q = [] then [] else '?' :: q))).takeWhile
          (fun c => !(isNetDelim c)) = n ∧
        (n ++ (pathAdj p ++ (if q = [] then [] else '?' :: q))).dropWhile
          (fun c => !(isNetDelim c)) = pathAdj p ++ (if q = [] then [] else '?' :: q) := by
      rcases hdelim with hnil2 | ⟨d, rest, heq, hd⟩
      · rw [hnil2, List.append_nil]
        exact ⟨takeWhile_all _ _ hnet, dropWhile_all _ _ hnet⟩
      · rw [heq]
        exact takeWhile_append_cons _ _ _ _ hnet (by rw [hd]; rfl)
    rw [htw.1, htw.2, if_pos hnb]
    have hnohash : ∀ c ∈ pathAdj p ++ (if q = [] then [] else '?' :: q), ¬(c = '#') := by
      intro c hc
      rcases List.mem_append.mp hc with hc | hc
      · unfold pathAdj at hc
        by_cases hcp : !p.isEmpty && !(decide (p.head? = some '/'))
        · rw [if_pos hcp] at hc
          rcases List.mem_cons.mp hc with rfl | hc
          · decide
          · exact hph c hc
        · rw [if_neg hcp] at hc
          exact hph c hc
      · by_cases hq : q = []
        · rw [if_pos hq] at hc
          cases hc
        · rw [if_neg hq] at hc
          rcases List.mem_cons.mp hc with rfl | hc
          · decide
          · exact hqh c hc
    have hnoq : ∀ c ∈ pathAdj p, ¬(c = '?') := by
      intro c hc
      unfold pathAdj at hc
      by_cases hcp : !p.isEmpty && !(decide (p.head? = some '/'))
      · rw [if_pos hcp] at hc
        rcases List.mem_cons.mp hc with rfl | hc
        · decide
        · exact hpq c hc
      · rw [if_neg hcp] at hc
        exact hpq c hc
    by_cases hq : q = []
    · have hpaH : ∀ c ∈ pathAdj p, ¬(c = '#') := fun c hc =>
        hnohash c (List.mem_append.mpr (Or.inl hc))
      rw [if_pos hq, hq, List.append_nil]
      rw [breakOn_not_contains '#' _ hpaH]
      rw [show ((pathAdj p, ([] : List Char)).1) = pathAdj p from rfl]
      rw [breakOn_not_contains '?' _ hnoq]
    · have hnohash2 : ∀ c ∈ pathAdj p ++ '?' :: q, ¬(c = '#') := by
        intro c hc
        apply hnohash c
        rw [if_neg hq]
        exact hc
      rw [if_neg hq]
      rw [breakOn_not_contains '#' _ hnohash2]
      rw [show ((pathAdj p ++ '?' :: q, ([] : List Char)).1) =
        pathAdj p ++ '?' :: q from rfl]
      rw [breakOn_append '?' _ _ hnoq]
  · have he2 : emitsNetloc ⟨s, n, p, q, []⟩ = false := by
      cases hv : emitsNetloc ⟨s, n, p, q, []⟩
      · rfl
      · exact absurd hv he
    have hn0 : n = [] := hnil he2
    have h2 : (splitScheme (preprocess (urlunsplitM ⟨s, n, p, q, []⟩))).2 =
        p ++ (if q = [] then [] else '?' :: q) := by
      rw [hrest, if_neg he]
    rw [h2, if_neg he, hn0]
    have htk : (p ++ (if q = [] then [] else '?' :: q)).take 2 ≠ ['/', '/'] := by
      intro hcontra
      apply hW6 he2
      by_cases hq : q = []
      · rw [if_pos hq, List.append_nil] at hcontra
        exact hcontra
      · rw [if_neg hq] at hcontra
        cases p with
        | nil =>
          exfalso
          have h : (('?' :: q : List Char)).take 2 = ['/', '/'] := hcontra
          have hh : ('?' : Char) = '/' := by
            cases q with
            | nil => exact absurd h (by decide)
            | cons x xs =>
              have h2 : (['?', x] : List Char) = ['/', '/'] := h
              have := congrArg (fun l : List Char => l.head?) h2
              simpa using this
          exact absurd hh (by decide)
        | cons a as =>
          cases as with
          | nil =>
            exfalso
            have h2 : ([a, '?'] : List Char) = ['/', '/'] := hcontra
            have hbad : ('?' : Char) = '/' := by
              have := congrArg (fun l : List Char => l.tail.head?) h2
              simpa using this
            exact absurd hbad (by decide)
          | cons b bs =>
            have h2 : ([a, b] : List Char) = ['/', '/'] := hcontra
            have ha : a = '/' := by
              have := congrArg (fun l : List Char => l.head?) h2
              simpa using this
            have hb : b = '/' := by
              have := congrArg (fun l : List Char => l.tail.head?) h2
              simpa using this
            subst ha
            subst hb
            rfl
    rw [if_neg htk]
    have hnohash2 : ∀ c ∈ p ++ (if q = [] then [] else '?' :: q), ¬(c = '#') := by
      intro c hc
      rcases List.mem_append.mp hc with hc | hc
      · exact hph c hc
      · by_cases hq : q = []
        · rw [if_pos hq] at hc
          cases hc
        · rw [if_neg hq] at hc
          rcases List.mem_cons.mp hc with rfl | hc
          · decide
          · exact hqh c hc
    by_cases hq : q = []
    · have hpH : ∀ c ∈ p, ¬(c = '#') := fun c hc =>
        hnohash2 c (List.mem_append.mpr (Or.inl hc))
      rw [if_pos hq, hq, List.append_nil]
      rw [breakOn_not_contains '#' _ hpH]
      rw [show ((p, ([] : List Char)).1) = p from rfl]
      rw [breakOn_not_contains '?' _ hpq]
    · have hnohash3 : ∀ c ∈ p ++ '?' :: q, ¬(c = '#') := by
        intro c hc
        apply hnohash2 c
        rw [if_neg hq]
        exact hc
      rw [if_neg hq]
      rw [breakOn_not_contains '#' _ hnohash3]
      rw [show ((p ++ '?' :: q, ([] : List Char)).1) = p ++ '?' :: q from rfl]
      rw [breakOn_append '?' _ _ hpq]

/-! ### Character classification lemmas -/

theorem uint32_le_iff (a b : UInt32) : a ≤ b ↔ a.toNat ≤ b.toNat := by
  rw [UInt32.le_def, BitVec.le_def]
  exact Iff.rfl

theorem char_toNat_ofNat (n : Nat) (h : n < 55296) : (Char.ofNat n).toNat = n := by
  rw [Char.ofNat, dif_pos (Or.inl h)]
  rfl

theorem isUpper_iff (c : Char) : c.isUpper = true ↔ 65 ≤ c.toNat ∧ c.toNat ≤ 90 := by
  have h65 : (65 : UInt32).toNat = 65 := rfl
  have h90 : (90 : UInt32).toNat = 90 := rfl
  unfold Char.isUpper
  rw [Bool.and_eq_true, decide_eq_true_eq, decide_eq_true_eq, ge_iff_le,
    uint32_le_iff, uint32_le_iff, h65, h90]
  exact Iff.rfl

theorem isLower_iff (c : Char) : c.isLower = true ↔ 97 ≤ c.toNat ∧ c.toNat ≤ 122 := by
  have h97 : (97 : UInt32).toNat = 97 := rfl
  have h122 : (122 : UInt32).toNat = 122 := rfl
  unfold Char.isLower
  rw [Bool.and_eq_true, decide_eq_true_eq, decide_eq_true_eq, ge_iff_le,
    uint32_le_iff, uint32_le_iff, h97, h122]
  exact Iff.rfl

theorem isAlpha_iff (c : Char) : c.isAlpha = true ↔
    (65 ≤ c.toNat ∧ c.toNat ≤ 90) ∨ (97 ≤ c.toNat ∧ c.toNat ≤ 122) := by
  unfold Char.isAlpha
  rw [Bool.or_eq_true, isUpper_iff, isLower_iff]

theorem toLower_shift (c : Char) (h : 65 ≤ c.toNat ∧ c.toNat ≤ 90) :
    c.toLower.toNat = c.toNat + 32 := by
  show (if c.toNat ≥ 65 ∧ c.toNat ≤ 90 then Char.ofNat (c.toNat + 32) else c).toNat =
    c.toNat + 32
  rw [if_pos h]
  exact char_toNat_ofNat _ (by omega)

theorem toLower_eq_self (c : Char) (h : ¬(65 ≤ c.toNat ∧ c.toNat ≤ 90)) :
    c.toLower = c := by
  show (if c.toNat ≥ 65 ∧ c.toNat ≤ 90 then Char.ofNat (c.toNat + 32) else c) = c
  rw [if_neg h]

theorem toLower_idem (c : Char) : c.toLower.toLower = c.toLower := by
  by_cases h : 65 ≤ c.toNat ∧ c.toNat ≤ 90
  · have hs := toLower_shift c h
    exact toLower_eq_self _ (by omega)
  · rw [toLower_eq_self c h, toLower_eq_self c h]

theorem alpha_toLower (c : Char) (h : c.isAlpha = true) : c.toLower.isAlpha = true := by
  by_cases hu : 65 ≤ c.toNat ∧ c.toNat ≤ 90
  · have hs := toLower_shift c hu
    rw [isAlpha_iff]
    right
    omega
  · rw [toLower_eq_self c hu]
    exact h

theorem isDigit_iff (c : Char) : c.isDigit = true ↔ 48 ≤ c.toNat ∧ c.toNat ≤ 57 := by
  have h48 : (48 : UInt32).toNat = 48 := rfl
  have h57 : (57 : UInt32).toNat = 57 := rfl
  unfold Char.isDigit
  rw [Bool.and_eq_true, decide_eq_true_eq, decide_eq_true_eq, ge_iff_le,
    uint32_le_iff, uint32_le_iff, h48, h57]
  exact Iff.rfl

theorem schemeChar_toLower (c : Char) (h : isSchemeChar c = true) :
    isSchemeChar c.toLower = true := by
  by_cases hu : 65 ≤ c.toNat ∧ c.toNat ≤ 90
  · have hs := toLower_shift c hu
    have ha : c.toLower.isAlpha = true := by
      rw [isAlpha_iff]
      right
      omega
    unfold isSchemeChar
    rw [ha]
    rfl
  · rw [toLower_eq_self c hu]
    exact h

theorem alpha_not_C0 (c : Char) (h : c.isAlpha = true) : isC0OrSpace c = false := by
  rw [isAlpha_iff] at h
  unfold isC0OrSpace
  rw [decide_eq_false_iff_not]
  omega

theorem schemeChar_not_unsafe (c : Char) (h : isSchemeChar c = true) :
    isUnsafeByte c = false := by
  cases hu : isUnsafeByte c
  · rfl
  · exfalso
    unfold isUnsafeByte at hu
    simp only [Bool.or_eq_true, decide_eq_true_eq] at hu
    rcases hu with (h1 | h1) | h1 <;> (subst h1; exact absurd h (by decide))

theorem schemeChar_ne_slash (c : Char) (h : isSchemeChar c = true) : ¬(c = '/') := by
  intro he
  subst he
  exact absurd h (by decide)

theorem netDelim_not_alpha (c : Char) (h : isNetDelim c = true) : c.isAlpha = false := by
  unfold isNetDelim at h
  simp only [Bool.or_eq_true, decide_eq_true_eq] at h
  rcases h with (h1 | h1) | h1 <;> (subst h1; decide)

theorem netDelim_not_C0 (c : Char) (h : isNetDelim c = true) : isC0OrSpace c = false := by
  unfold isNetDelim at h
  simp only [Bool.or_eq_true, decide_eq_true_eq] at h
  rcases h with (h1 | h1) | h1 <;> (subst h1; decide)

theorem unsafe_is_C0 (c : Char) (h : isUnsafeByte c = true) : isC0OrSpace c = true := by
  unfold isUnsafeByte at h
  simp only [Bool.or_eq_true, decide_eq_true_eq] at h
  rcases h with (h1 | h1) | h1 <;> (subst h1; decide)

theorem preprocess_safe (l : List Char) (c : Char) (hc : c ∈ preprocess l) :
    isUnsafeByte c = false := by
  unfold preprocess at hc
  have := List.mem_filter.mp hc
  simpa using this.2

theorem preprocess_head (l : List Char) (hd : Char)
    (h : (preprocess l).head? = some hd) : isC0OrSpace hd = false := by
  unfold preprocess at h
  cases hdw : (l.dropWhile isC0OrSpace) with
  | nil => rw [hdw] at h; cases h
  | cons c cs =>
    have hc0 : isC0OrSpace c = false := dropWhile_head_false _ _ _ _ hdw
    have hsafe : isUnsafeByte c = false := by
      cases hu : isUnsafeByte c
      · rfl
      · rw [unsafe_is_C0 c hu] at hc0; cases hc0
    rw [hdw] at h
    rw [List.filter_cons_of_pos (by rw [hsafe]; rfl)] at h
    rw [List.head?_cons, Option.some.injEq] at h
    subst h
    exact hc0

/-! ### List and component lemmas -/

theorem head_append_left {α} (a b : List α) (h : a ≠ []) :
    (a ++ b).head? = a.head? := by
  cases a with
  | nil => exact absurd rfl h
  | cons x xs => rfl

theorem takeWhile_head {α} (p : α → Bool) (l : List α) (c : α)
    (h : (l.takeWhile p).head? = some c) : l.head? = some c := by
  cases l with
  | nil => cases h
  | cons x xs =>
    rw [List.takeWhile_cons] at h
    by_cases hx : p x = true
    · rw [if_pos hx] at h
      exact h
    · rw [if_neg hx] at h
      cases h

theorem head_mem {α} (l : List α) (c : α) (h : l.head? = some c) : c ∈ l := by
  cases l with
  | nil => cases h
  | cons x xs =>
    rw [List.head?_cons, Option.some.injEq] at h
    subst h
    exact List.mem_cons_self x xs

theorem splitScheme_cases (l : List Char) :
    splitScheme l = ([], l) ∨ SchemeOK (splitScheme l).1 := by
  unfold splitScheme
  split
  · exact Or.inl rfl
  · rename_i i hf
    by_cases hc : 0 < i ∧ (l.headD ' ').isAlpha = true ∧ (l.take i).all isSchemeChar = true
    · rw [if_pos hc]
      right
      show SchemeOK ((l.take i).map Char.toLower)
      obtain ⟨h0, hh, hall⟩ := hc
      have hlt : i < l.length := findColon_lt_length l i hf
      have hlen : ((l.take i).map Char.toLower).length = i := by
        rw [List.length_map, List.length_take]
        omega
      refine ⟨?_, ?_, ?_, ?_⟩
      · intro he
        rw [he] at hlen
        simp at hlen
        omega
      · rw [List.all_eq_true]
        intro a ha
        rw [List.mem_map] at ha
        obtain ⟨b, hb, hba⟩ := ha
        subst hba
        exact schemeChar_toLower b (List.all_eq_true.mp hall b hb)
      · rw [List.map_map]
        exact List.map_congr_left fun a _ => toLower_idem a
      · intro hd hhd
        rw [List.head?_map] at hhd
        cases hto : (l.take i).head? with
        | none => rw [hto] at hhd; cases hhd
        | some b =>
          rw [hto, Option.map_some', Option.some.injEq] at hhd
          subst hhd
          apply alpha_toLower
          cases l with
          | nil => simp at hto
          | cons x xs =>
            cases i with
            | zero => omega
            | succ j =>
              rw [List.take_succ_cons, List.head?_cons, Option.some.injEq] at hto
              subst hto
              exact hh
    · rw [if_neg hc]
      exact Or.inl rfl

theorem splitScheme_empty (l : List Char) (h : (splitScheme l).1 = []) :
    splitScheme l = ([], l) := by
  rcases splitScheme_cases l with hc | hc
  · exact hc
  · exact absurd h hc.1

theorem splitScheme_snd_mem (l : List Char) (c : Char)
    (hc : c ∈ (splitScheme l).2) : c ∈ l := by
  revert hc
  unfold splitScheme
  split
  · exact id
  · rename_i i hf
    by_cases hg : 0 < i ∧ (l.headD ' ').isAlpha = true ∧ (l.take i).all isSchemeChar = true
    · rw [if_pos hg]
      intro hc
      exact (List.drop_sublist (i + 1) l).subset hc
    · rw [if_neg hg]
      exact id

theorem take_two_slashes_append (a t : List Char) (h : a.take 2 = ['/', '/']) :
    (a ++ t).take 2 = ['/', '/'] := by
  cases a with
  | nil => cases h
  | cons x xs =>
    cases xs with
    | nil => cases h
    | cons y ys =>
      have h2 : ([x, y] : List Char) = ['/', '/'] := h
      rw [List.cons.injEq] at h2
      obtain ⟨hx, h3⟩ := h2
      rw [List.cons.injEq] at h3
      rw [hx, h3.1]
      rfl

theorem endsWithSlash_false_of (l : List Char) (h : ∀ c ∈ l, ¬(c = '/')) :
    endsWithSlash l = false := by
  unfold endsWithSlash
  cases hr : l.reverse with
  | nil =>
    have : l = [] := by simpa using congrArg List.reverse hr
    subst this
    rfl
  | cons c cs =>
    have hlast : l.getLast? = some c := by
      rw [← List.head?_reverse, hr, List.head?_cons]
    rw [hlast]
    have hcm : c ∈ l := by
      have : c ∈ l.reverse := by rw [hr]; exact List.mem_cons_self c cs
      simpa using this
    simp [h c hcm]

theorem rstrip_all_slash (l : List Char) (h : rstripSlashes l = []) :
    ∀ c ∈ l, c = '/' := by
  obtain ⟨t2, hl, ht⟩ := rstrip_decomp l
  rw [h, List.nil_append] at hl
  intro c hc
  rw [hl] at hc
  exact ht c hc

theorem mem_rstrip (l : List Char) (c : Char) (hc : c ∈ rstripSlashes l) : c ∈ l := by
  obtain ⟨t2, hl, _⟩ := rstrip_decomp l
  rw [hl]
  exact List.mem_append.mpr (Or.inl hc)

theorem head_rstrip (l : List Char) (h : rstripSlashes l ≠ []) :
    (rstripSlashes l).head? = l.head? := by
  obtain ⟨t2, hl, _⟩ := rstrip_decomp l
  conv_rhs => rw [hl]
  rw [head_append_left _ _ h]

theorem pathAdj_head_slash (p : List Char) (h : p.head? = some '/') :
    pathAdj p = p := by
  unfold pathAdj
  rw [if_neg]
  rw [h]
  simp

theorem pathAdj_idem (p : List Char) : pathAdj (pathAdj p) = pathAdj p := by
  rcases pathAdj_shape p with ⟨h1, _⟩ | ⟨h1, _⟩
  · rw [h1]
    rfl
  · exact pathAdj_head_slash _ h1

theorem pathAdj_eq_nil (p : List Char) (h : pathAdj p = []) : p = [] := by
  rcases pathAdj_shape p with ⟨_, h2⟩ | ⟨h1, _⟩
  · exact h2
  · rw [h] at h1
    cases h1

theorem pathAdj_mem (p : List Char) (c : Char) (hc : c ∈ pathAdj p) :
    c = '/' ∨ c ∈ p := by
  unfold pathAdj at hc
  by_cases hcnd : !p.isEmpty && !(decide (p.head? = some '/'))
  · rw [if_pos hcnd] at hc
    rcases List.mem_cons.mp hc with rfl | hc
    · exact Or.inl rfl
    · exact Or.inr hc
  · rw [if_neg hcnd] at hc
    exact Or.inr hc

theorem pathAdj_take2 (p : List Char) (h : ¬(p.take 2 = ['/', '/'])) :
    ¬((pathAdj p).take 2 = ['/', '/']) := by
  unfold pathAdj
  by_cases hcnd : !p.isEmpty && !(decide (p.head? = some '/'))
  · rw [if_pos hcnd]
    simp only [Bool.and_eq_true, Bool.not_eq_true', List.isEmpty_eq_false,
      decide_eq_false_iff_not] at hcnd
    cases p with
    | nil => simp at hcnd
    | cons x xs =>
      intro hcontra
      have h2 : (['/', x] : List Char) = ['/', '/'] := hcontra
      rw [List.cons.injEq] at h2
      have hx : x = '/' := by
        have := h2.2
        rw [List.cons.injEq] at this
        exact this.1
      exact hcnd.2 (by rw [List.head?_cons, hx])
  · rw [if_neg hcnd]
    exact h

theorem emits_false_netloc (s n p q f : List Char)
    (h : emitsNetloc ⟨s, n, p, q, f⟩ = false) : n = [] := by
  unfold emitsNetloc at h
  rw [Bool.or_eq_false_iff] at h
  have := h.1
  simpa [List.isEmpty_iff] using this

theorem emits_eq (s n p q f : List Char) :
    emitsNetloc ⟨s, n, p, q, f⟩ =
      (!n.isEmpty || (!s.isEmpty && usesNetloc.contains s &&
        !(decide (p.take 2 = ['/', '/'])))) := rfl

theorem emits_pathAdj (s n p q f : List Char)
    (h : emitsNetloc ⟨s, n, p, q, f⟩ = true) :
    emitsNetloc ⟨s, n, pathAdj p, q, f⟩ = true := by
  rw [emits_eq] at h ⊢
  rw [Bool.or_eq_true] at h ⊢
  rcases h with h | h
  · exact Or.inl h
  · right
    rw [Bool.and_eq_true] at h
    rw [Bool.and_eq_true]
    refine ⟨h.1, ?_⟩
    have h2 := h.2
    rw [Bool.not_eq_true', decide_eq_false_iff_not] at h2
    rw [Bool.not_eq_true', decide_eq_false_iff_not]
    exact pathAdj_take2 p h2

theorem urlunsplit_chars (s n p q : List Char) (c : Char)
    (hc : c ∈ urlunsplitM ⟨s, n, p, q, []⟩) :
    c ∈ s ∨ c ∈ n ∨ c ∈ p ∨ c ∈ q ∨ c = ':' ∨ c = '/' ∨ c = '?' := by
  rw [urlunsplit_shape] at hc
  rcases List.mem_append.mp hc with hc | hc
  · by_cases hs : s = []
    · rw [if_pos hs] at hc
      cases hc
    · rw [if_neg hs] at hc
      rcases List.mem_append.mp hc with hc | hc
      · exact Or.inl hc
      · rcases List.mem_cons.mp hc with rfl | hc
        · exact Or.inr (Or.inr (Or.inr (Or.inr (Or.inl rfl))))
        · cases hc
  · rcases List.mem_append.mp hc with hc | hc
    · by_cases he : emitsNetloc ⟨s, n, p, q, []⟩ = true
      · rw [if_pos he] at hc
        rcases List.mem_cons.mp hc with rfl | hc
        · exact Or.inr (Or.inr (Or.inr (Or.inr (Or.inr (Or.inl rfl)))))
        · rcases List.mem_cons.mp hc with rfl | hc
          · exact Or.inr (Or.inr (Or.inr (Or.inr (Or.inr (Or.inl rfl)))))
          · rcases List.mem_append.mp hc with hc | hc
            · exact Or.inr (Or.inl hc)
            · rcases pathAdj_mem p c hc with rfl | hc
              · exact Or.inr (Or.inr (Or.inr (Or.inr (Or.inr (Or.inl rfl)))))
              · exact Or.inr (Or.inr (Or.inl hc))
      · rw [if_neg he] at hc
        exact Or.inr (Or.inr (Or.inl hc))
    · by_cases hq : q = []
      · rw [if_pos hq] at hc
        cases hc
      · rw [if_neg hq] at hc
        rcases List.mem_cons.mp hc with rfl | hc
        · exact Or.inr (Or.inr (Or.inr (Or.inr (Or.inr (Or.inr rfl)))))
        · exact Or.inr (Or.inr (Or.inr (Or.inl hc)))

theorem unsplit_preprocess (s n p q : List Char)
    (hsch : s ≠ [] → SchemeOK s)
    (hsafeN : ∀ c ∈ n, isUnsafeByte c = false)
    (hsafeP : ∀ c ∈ p, isUnsafeByte c = false)
    (hsafeQ : ∀ c ∈ q, isUnsafeByte c = false)
    (hC0 : s = [] → emitsNetloc ⟨s, n, p, q, []⟩ = false →
      ∀ hd, (p ++ (if q = [] then [] else '?' :: q)).head? = some hd →
        isC0OrSpace hd = false) :
    preprocess (urlunsplitM ⟨s, n, p, q, []⟩) = urlunsplitM ⟨s, n, p, q, []⟩ := by
  apply preprocess_id
  · intro c hc
    rcases urlunsplit_chars s n p q c hc with h | h | h | h | h | h | h
    · exact schemeChar_not_unsafe c
        (List.all_eq_true.mp (hsch (List.ne_nil_of_mem h)).2.1 c h)
    · exact hsafeN c h
    · exact hsafeP c h
    · exact hsafeQ c h
    · subst h; decide
    · subst h; decide
    · subst h; decide
  · intro hd hhd
    rw [urlunsplit_shape] at hhd
    by_cases hs : s = []
    · rw [if_pos hs, List.nil_append] at hhd
      by_cases he : emitsNetloc ⟨s, n, p, q, []⟩ = true
      · rw [if_pos he, List.cons_append, List.head?_cons, Option.some.injEq] at hhd
        subst hhd
        decide
      · have he2 : emitsNetloc ⟨s, n, p, q, []⟩ = false := by
          cases hv : emitsNetloc ⟨s, n, p, q, []⟩
          · rfl
          · exact absurd hv he
        rw [if_neg he] at hhd
        exact hC0 hs he2 hd hhd
    · rw [if_neg hs, List.append_assoc, head_append_left _ _ hs] at hhd
      exact alpha_not_C0 hd ((hsch hs).2.2.2 hd hhd)

theorem breakOn_fst_mem (ch : Char) (l : List Char) (c : Char)
    (hc : c ∈ (breakOn ch l).1) : ¬(c = ch) ∧ c ∈ l := by
  have hc2 : c ∈ l.takeWhile (fun x => !(decide (x = ch))) := hc
  constructor
  · have := List.mem_takeWhile_imp hc2
    simpa using this
  · exact (List.takeWhile_sublist _).subset hc2

theorem breakOn_snd_mem (ch : Char) (l : List Char) (c : Char)
    (hc : c ∈ (breakOn ch l).2) : c ∈ l := by
  have hc2 : c ∈ (l.dropWhile (fun x => !(decide (x = ch)))).drop 1 := hc
  exact (List.dropWhile_sublist _).subset ((List.drop_sublist 1 _).subset hc2)

theorem breakOn_fst_head (ch : Char) (l : List Char) (c : Char)
    (h : ((breakOn ch l).1).head? = some c) : l.head? = some c :=
  takeWhile_head _ l c h

theorem breakOn_decomp (ch : Char) (l : List Char) :
    l = (breakOn ch l).1 ++ ch :: (breakOn ch l).2 ∨
      ((breakOn ch l).2 = [] ∧ (breakOn ch l).1 = l) := by
  have hsplit : l.takeWhile (fun x => !(decide (x = ch))) ++
      l.dropWhile (fun x => !(decide (x = ch))) = l :=
    List.takeWhile_append_dropWhile _ l
  cases hd : l.dropWhile (fun x => !(decide (x = ch))) with
  | nil =>
    right
    refine ⟨?_, ?_⟩
    · show (l.dropWhile (fun x => !(decide (x = ch)))).drop 1 = []
      rw [hd]
      rfl
    · show l.takeWhile (fun x => !(decide (x = ch))) = l
      rw [hd, List.append_nil] at hsplit
      exact hsplit
  | cons x xs =>
    left
    have hx : x = ch := by
      have := dropWhile_head_false _ _ _ _ hd
      simpa using this
    rw [hd] at hsplit
    show l = l.takeWhile (fun y => !(decide (y = ch))) ++
      ch :: (l.dropWhile (fun y => !(decide (y = ch)))).drop 1
    calc l = l.takeWhile (fun y => !(decide (y = ch))) ++ x :: xs := hsplit.symm
      _ = l.takeWhile (fun y => !(decide (y = ch))) ++ ch :: xs := by rw [hx]
      _ = l.takeWhile (fun y => !(decide (y = ch))) ++
          ch :: (l.dropWhile (fun y => !(decide (y = ch)))).drop 1 := by
        rw [hd]
        rfl

theorem body_head_cases (X : List Char) (hd : Char)
    (hhd : ((breakOn '?' (breakOn '#' X).1).1 ++
      (if (breakOn '?' (breakOn '#' X).1).2 = [] then []
       else '?' :: (breakOn '?' (breakOn '#' X).1).2)).head? = some hd) :
    hd = '?' ∨ X.head? = some hd := by
  cases hp : (breakOn '?' (breakOn '#' X).1).1 with
  | nil =>
    rw [hp, List.nil_append] at hhd
    by_cases hq : (breakOn '?' (breakOn '#' X).1).2 = []
    · rw [if_pos hq] at hhd
      cases hhd
    · rw [if_neg hq, List.head?_cons, Option.some.injEq] at hhd
      exact Or.inl hhd.symm
  | cons x xs =>
    rw [hp, List.cons_append, List.head?_cons, Option.some.injEq] at hhd
    subst hhd
    right
    have h1 : ((breakOn '?' (breakOn '#' X).1).1).head? = some x := by rw [hp]; rfl
    exact breakOn_fst_head '#' X x (breakOn_fst_head '?' _ x h1)

/-- The components pass one produces: the netloc has no delimiter and
passes the bracket validation, the path has no `#` or `?`, the query
no `#`; a nonempty scheme
is well formed; with no scheme the path-query body is either
non-alphabetic at its head or a prefix of the cleaned input on which
scheme detection failed; all components are free of unsafe bytes and
the body's head survives the WHATWG strip. -/
theorem urlsplitM_inv (l : List Char) (S N p0 Q F : List Char)
    (h : urlsplitM l = some ⟨S, N, p0, Q, F⟩) :
    (∀ c ∈ N, isNetDelim c = false) ∧
    netlocOk N = true ∧
    (∀ c ∈ p0, ¬(c = '#')) ∧
    (∀ c ∈ p0, ¬(c = '?')) ∧
    (∀ c ∈ Q, ¬(c = '#')) ∧
    (S ≠ [] → SchemeOK S) ∧
    (S = [] →
      (∀ hd, (p0 ++ (if Q = [] then [] else '?' :: Q)).head? = some hd →
        hd.isAlpha = false) ∨
      ∃ t, (p0 ++ (if Q = [] then [] else '?' :: Q)) ++ t = preprocess l ∧
        splitScheme (preprocess l) = ([], preprocess l)) ∧
    (∀ c, (c ∈ N ∨ c ∈ p0 ∨ c ∈ Q) → isUnsafeByte c = false) ∧
    (S = [] → ∀ hd, (p0 ++ (if Q = [] then [] else '?' :: Q)).head? = some hd →
      isC0OrSpace hd = false) := by
  rw [urlsplitM_eq] at h
  by_cases hA : ((splitScheme (preprocess l)).2.take 2 = ['/', '/'])
  · rw [if_pos hA] at h
    by_cases hok : netlocOk (((splitScheme (preprocess l)).2.drop 2).takeWhile
        fun c => !(isNetDelim c)) = true
    · rw [if_pos hok] at h
      rw [Option.some.injEq, SplitParts.mk.injEq] at h
      obtain ⟨h1, h2, h3, h4, h5⟩ := h
      subst h1
      subst h2
      subst h3
      subst h4
      subst h5
      refine ⟨?_, hok, ?_, ?_, ?_, ?_, ?_, ?_, ?_⟩
      · intro c hc
        have := List.mem_takeWhile_imp hc
        simpa using this
      · intro c hc
        exact (breakOn_fst_mem '#' _ c (breakOn_fst_mem '?' _ c hc).2).1
      · intro c hc
        exact (breakOn_fst_mem '?' _ c hc).1
      · intro c hc
        exact (breakOn_fst_mem '#' _ c (breakOn_snd_mem '?' _ c hc)).1
      · intro hne
        rcases splitScheme_cases (preprocess l) with hc | hc
        · exact absurd (by rw [hc]) hne
        · exact hc
      · intro hS0
        left
        intro hd hhd
        rcases body_head_cases _ hd hhd with rfl | hx
        · decide
        · cases hD : ((splitScheme (preprocess l)).2.drop 2).dropWhile
              (fun c => !(isNetDelim c)) with
          | nil => rw [hD] at hx; cases hx
          | cons y ys =>
            rw [hD, List.head?_cons, Option.some.injEq] at hx
            subst hx
            have hg := dropWhile_head_false _ _ _ _ hD
            have hdel : isNetDelim y = true := by simpa using hg
            exact netDelim_not_alpha y hdel
      · intro c hmem
        have hLmem : c ∈ preprocess l := by
          rcases hmem with hm | hm | hm
          · have h1 : c ∈ (splitScheme (preprocess l)).2.drop 2 :=
              (List.takeWhile_sublist _).subset hm
            exact splitScheme_snd_mem _ c ((List.drop_sublist 2 _).subset h1)
          · have h1 := (breakOn_fst_mem '?' _ c hm).2
            have h2 := (breakOn_fst_mem '#' _ c h1).2
            have h3 : c ∈ (splitScheme (preprocess l)).2.drop 2 :=
              (List.dropWhile_sublist _).subset h2
            exact splitScheme_snd_mem _ c ((List.drop_sublist 2 _).subset h3)
          · have h1 := breakOn_snd_mem '?' _ c hm
            have h2 := (breakOn_fst_mem '#' _ c h1).2
            have h3 : c ∈ (splitScheme (preprocess l)).2.drop 2 :=
              (List.dropWhile_sublist _).subset h2
            exact splitScheme_snd_mem _ c ((List.drop_sublist 2 _).subset h3)
        exact preprocess_safe l c hLmem
      · intro hS0 hd hhd
        rcases body_head_cases _ hd hhd with rfl | hx
        · decide
        · cases hD : ((splitScheme (preprocess l)).2.drop 2).dropWhile
              (fun c => !(isNetDelim c)) with
          | nil => rw [hD] at hx; cases hx
          | cons y ys =>
            rw [hD, List.head?_cons, Option.some.injEq] at hx
            subst hx
            have hg := dropWhile_head_false _ _ _ _ hD
            have hdel : isNetDelim y = true := by simpa using hg
            exact netDelim_not_C0 y hdel
    · rw [if_neg hok] at h
      cases h
  · rw [if_neg hA] at h
    rw [Option.some.injEq, SplitParts.mk.injEq] at h
    obtain ⟨h1, h2, h3, h4, h5⟩ := h
    subst h1
    subst h2
    subst h3
    subst h4
    subst h5
    refine ⟨?_, by decide, ?_, ?_, ?_, ?_, ?_, ?_, ?_⟩
    · intro c hc
      cases hc
    · intro c hc
      exact (breakOn_fst_mem '#' _ c (breakOn_fst_mem '?' _ c hc).2).1
    · intro c hc
      exact (breakOn_fst_mem '?' _ c hc).1
    · intro c hc
      exact (breakOn_fst_mem '#' _ c (breakOn_snd_mem '?' _ c hc)).1
    · intro hne
      rcases splitScheme_cases (preprocess l) with hc | hc
      · exact absurd (by rw [hc]) hne
      · exact hc
    · intro hS0
      right
      have hfail : splitScheme (preprocess l) = ([], preprocess l) :=
        splitScheme_empty _ hS0
      have hR : (splitScheme (preprocess l)).2 = preprocess l := by rw [hfail]
      obtain ⟨t1, ht1⟩ : ∃ t1, (breakOn '#' (splitScheme (preprocess l)).2).1 ++ t1 =
          (splitScheme (preprocess l)).2 := by
        rcases breakOn_decomp '#' ((splitScheme (preprocess l)).2) with hdec | hdec
        · exact ⟨'#' :: (breakOn '#' (splitScheme (preprocess l)).2).2, hdec.symm⟩
        · exact ⟨[], by rw [List.append_nil, hdec.2]⟩
      rcases breakOn_decomp '?' ((breakOn '#' (splitScheme (preprocess l)).2).1)
        with hdec2 | hdec2
      · by_cases hq : (breakOn '?' (breakOn '#' (splitScheme (preprocess l)).2).1).2 = []
        · refine ⟨'?' :: (breakOn '?' (breakOn '#' (splitScheme (preprocess l)).2).1).2 ++
            t1, ?_, hfail⟩
          rw [if_pos hq, List.append_nil]
          rw [← List.append_assoc, ← hdec2, ht1, hR]
        · refine ⟨t1, ?_, hfail⟩
          rw [if_neg hq]
          rw [← hdec2, ht1, hR]
      · refine ⟨t1, ?_, hfail⟩
        rw [if_pos hdec2.1, List.append_nil, hdec2.2, ht1, hR]
    · intro c hmem
      have hLmem : c ∈ preprocess l := by
        rcases hmem with hm | hm | hm
        · cases hm
        · have h1 := (breakOn_fst_mem '?' _ c hm).2
          have h2 := (breakOn_fst_mem '#' _ c h1).2
          exact splitScheme_snd_mem _ c h2
        · have h1 := breakOn_snd_mem '?' _ c hm
          have h2 := (breakOn_fst_mem '#' _ c h1).2
          exact splitScheme_snd_mem _ c h2
      exact preprocess_safe l c hLmem
    · intro hS0 hd hhd
      rcases body_head_cases _ hd hhd with rfl | hx
      · decide
      · have hfail : splitScheme (preprocess l) = ([], preprocess l) :=
          splitScheme_empty _ hS0
        have hR : (splitScheme (preprocess l)).2 = preprocess l := by rw [hfail]
        rw [hR] at hx
        exact preprocess_head l hd hx

/-- A reassembled URL with no trailing slash (or with the bare `/`
path) is a fixed point of `canonicalize_url`. -/
theorem canon_fix (s n p q : List Char)
    (hn : ∀ c ∈ n, isNetDelim c = false)
    (hnb : netlocOk n = true)
    (hph : ∀ c ∈ p, ¬(c = '#'))
    (hpq : ∀ c ∈ p, ¬(c = '?'))
    (hqh : ∀ c ∈ q, ¬(c = '#'))
    (hW6 : emitsNetloc ⟨s, n, p, q, []⟩ = false → ¬(p.take 2 = ['/', '/']))
    (hpre : preprocess (urlunsplitM ⟨s, n, p, q, []⟩) = urlunsplitM ⟨s, n, p, q, []⟩)
    (hsf : s = [] →
      splitScheme (urlunsplitM ⟨s, n, p, q, []⟩) = ([], urlunsplitM ⟨s, n, p, q, []⟩))
    (hsok : s ≠ [] → SchemeOK s)
    (hns : endsWithSlash (urlunsplitM ⟨s, n, p, q, []⟩) = false ∨
      (if emitsNetloc ⟨s, n, p, q, []⟩ then pathAdj p else p) = ['/']) :
    canonicalize_url (String.mk (urlunsplitM ⟨s, n, p, q, []⟩)) =
      some (String.mk (urlunsplitM ⟨s, n, p, q, []⟩)) := by
  have hres := resplit s n p q hn hnb hph hpq hqh hW6 hpre hsf hsok
  have hclean2 : urlunsplitM ⟨s, n,
      (if emitsNetloc ⟨s, n, p, q, []⟩ then pathAdj p else p), q, []⟩ =
      urlunsplitM ⟨s, n, p, q, []⟩ := by
    by_cases he : emitsNetloc ⟨s, n, p, q, []⟩ = true
    · rw [if_pos he]
      have he2 : emitsNetloc ⟨s, n, pathAdj p, q, []⟩ = true := emits_pathAdj s n p q [] he
      rw [urlunsplit_shape, urlunsplit_shape, if_pos he2, if_pos he, pathAdj_idem]
    · rw [if_neg he]
  unfold canonicalize_url
  rw [show (String.mk (urlunsplitM ⟨s, n, p, q, []⟩)).toList =
    urlunsplitM ⟨s, n, p, q, []⟩ from rfl]
  rw [hres]
  show some (String.mk (if endsWithSlash (urlunsplitM ⟨s, n,
      (if emitsNetloc ⟨s, n, p, q, []⟩ then pathAdj p else p), q, []⟩) &&
      !(decide ((if emitsNetloc ⟨s, n, p, q, []⟩ then pathAdj p else p) = ['/']))
    then rstripSlashes (urlunsplitM ⟨s, n,
      (if emitsNetloc ⟨s, n, p, q, []⟩ then pathAdj p else p), q, []⟩)
    else urlunsplitM ⟨s, n,
      (if emitsNetloc ⟨s, n, p, q, []⟩ then pathAdj p else p), q, []⟩)) =
    some (String.mk (urlunsplitM ⟨s, n, p, q, []⟩))
  rw [hclean2]
  rcases hns with hns | hns
  · rw [hns]
    rfl
  · rw [hns]
    simp

theorem unsplit_schemefail (s n p q : List Char)
    (he : emitsNetloc ⟨s, n, p, q, []⟩ = true) (hs : s = []) :
    splitScheme (urlunsplitM ⟨s, n, p, q, []⟩) =
      ([], urlunsplitM ⟨s, n, p, q, []⟩) := by
  apply splitScheme_fail_head
  intro hd hhd
  rw [urlunsplit_shape, if_pos hs, List.nil_append, if_pos he, List.cons_append,
    List.head?_cons, Option.some.injEq] at hhd
  subst hhd
  decide

theorem netloc_no_slash (n : List Char) (hn : ∀ c ∈ n, isNetDelim c = false) :
    ∀ c ∈ n, ¬(c = '/') := by
  intro c hc he
  subst he
  exact absurd (hn '/' hc) (by decide)

/-! ## Concrete witness states -/

/-- A pending product row. -/
def wRow : QueueRow := ⟨"u1", Kind.product, Status.pending, 0, none, 1⟩

/-- A store holding just that row. -/
def wState : DBState := ⟨[wRow], [], [], [], []⟩

/-- A product row with a blank title (the repair heuristic matches it). -/
def wProd : ProductRow :=
  ⟨"p1", some "", none, none, none, none, none, none, none, none, none, none, none, 1, 1⟩

/-- A store holding the blank-title product and a stale lock for it. -/
def wState6 : DBState := ⟨[], [⟨"p1", 1⟩], [], [], [wProd]⟩

/-- The empty store. -/
def wEmpty : DBState := ⟨[], [], [], [], []⟩

/-- A first upsert payload. -/
def wD1 : ProductData :=
  ⟨"p1", some "A", none, some "USD", none, none, none, none, none, none, none, [], [],
   none, some 3⟩

/-- A second upsert payload for the same url with different fields. -/
def wD2 : ProductData := { wD1 with title := some "B", scrapedAt := some 4 }

/-- Witness for the reservation-atomicity theorem at a concrete store. -/
theorem reserve_next_atomic_witness :
    (reserve_next wState 2).1 = some ("u1", Kind.product) ∧
    (lockExists wState "u1" = false ∧
      lockExists (reserve_next wState 2).2 "u1" = true ∧
      ∀ ts2 k2, (reserve_next (applyOps (reserve_next wState 2).2 []) ts2).1 ≠
        some ("u1", k2)) :=
  ⟨by decide, reserve_next_atomic_spec wState 2 "u1" Kind.product [] (by decide) (by decide)⟩

/-- Witness for the lock-release theorem at a concrete store. -/
theorem mark_outcome_witness :
    hasQueueRow wState "u1" = true ∧
    (lockExists (mark_done wState "u1" 5) "u1" = false ∧
      ∀ ts2 k, (reserve_next (applyOps (mark_done wState "u1" 5) []) ts2).1 ≠
        some ("u1", k)) :=
  ⟨by decide, mark_outcome_releases wState (mark_done wState "u1" 5) "u1" []
      (by decide) (Or.inl ⟨5, rfl⟩) (by decide)⟩

/-- Witness for the status-transition theorem at a concrete store. -/
theorem status_transition_witness :
    statusOf wState "u1" = some Status.pending ∧
    (statusOf (applyOp wState (Op.markDone "u1" 5)) "u1" = statusOf wState "u1"
      ∨ (statusOf wState "u1" = none ∧
          statusOf (applyOp wState (Op.markDone "u1" 5)) "u1" = some Status.pending)
      ∨ (statusOf wState "u1" = some Status.pending ∧
          statusOf (applyOp wState (Op.markDone "u1" 5)) "u1" = some Status.done)
      ∨ (statusOf wState "u1" = some Status.pending ∧
          statusOf (applyOp wState (Op.markDone "u1" 5)) "u1" = some Status.error)
      ∨ (isRepairOp (Op.markDone "u1" 5) = true ∧
          statusOf wState "u1" = some Status.error ∧
          statusOf (applyOp wState (Op.markDone "u1" 5)) "u1" = some Status.pending)
      ∨ (isCorruptRepair (Op.markDone "u1" 5) = true ∧
          statusOf wState "u1" = some Status.done ∧
          statusOf (applyOp wState (Op.markDone "u1" 5)) "u1" = some Status.pending)) :=
  ⟨by decide, status_transition_discipline wState (Op.markDone "u1" 5) "u1"
      (by show statusOf wState "u1" = some Status.pending; decide)⟩

/-- Witness for the corrupt-result repair theorem at a concrete store. -/
theorem repair_corrupt_witness :
    PendingClean wState6 ∧
    ((∀ r ∈ (repairCorruptPass wState6 7).products, isEmptyProduct r = false) ∧
      (∀ u ∈ find_empty_products wState6,
        hasQueueRow (repairCorruptPass wState6 7) u = true ∧
        (∀ r ∈ (repairCorruptPass wState6 7).queue, r.url = u →
          r.status = Status.pending ∧ r.tries = 0 ∧ r.lastError = none) ∧
        lockExists (repairCorruptPass wState6 7) u = false) ∧
      (∀ u, hasQueueRow wState6 u = false →
        ∀ r ∈ (repairCorruptPass wState6 7).queue, r.url = u → r.kind = Kind.product)) :=
  ⟨by unfold PendingClean; decide,
   repair_corrupt_pass_spec wState6 7 (by unfold PendingClean; decide)⟩

/-- Witness for the recordError theorem at a concrete store. -/
theorem mark_error_witness :
    (wRow ∈ wState.queue ∧ wRow.url = "u1") ∧
    ({ wRow with status := Status.error, tries := wRow.tries + 1,
                 lastError := some (pyTake "boom" 1000), updatedAt := 9 }
        ∈ (mark_error wState "u1" "boom" 9).queue
      ∧ lockExists (mark_error wState "u1" "boom" 9) "u1" = false
      ∧ ∀ r' ∈ (mark_error wState "u1" "boom" 9).queue, r'.url = "u1" →
          r'.status = Status.error ∧ ∃ e, r'.lastError = some e ∧ e.length ≤ 1000) :=
  ⟨⟨by decide, rfl⟩, mark_error_records wState "u1" "boom" 9 wRow (by decide) rfl⟩

/-- Witness for the upsert-merge theorem at a concrete store. -/
theorem upsert_product_witness :
    (product_exists wEmpty wD1.url = false ∧ wD2.url = wD1.url) ∧
    productRowFor (upsert_product (upsert_product wEmpty wD1 1) wD2 2) wD1.url =
      some { insertedProductRow wD2 2 with
             url := wD1.url, discoveredAt := pyOr wD1.discoveredAt 1 } :=
  ⟨⟨by decide, rfl⟩, upsert_product_merge wEmpty wD1 wD2 1 2 (by decide) rfl⟩

/-- C10: `canonicalize_url` is idempotent on every URL the parser
accepts whose split query is not a nonempty run of slashes while the
path differs from `/`, and whose netloc is nonempty or whose path does
not begin with `//`. -/
theorem canonicalize_url_idempotent (u : String)
    (hgood : ∀ P, urlsplitM u.toList = some P →
      ((P.query = [] ∨ ∃ c ∈ P.query, ¬(c = '/')) ∨ P.path = ['/']) ∧
      (P.netloc ≠ [] ∨ ¬(P.path.take 2 = ['/', '/']))) :
    (canonicalize_url u).bind canonicalize_url = canonicalize_url u := by
  cases hu : urlsplitM u.toList with
  | none =>
    have h1 : canonicalize_url u = none := by
      unfold canonicalize_url
      rw [hu]
    rw [h1]
    rfl
  | some P =>
    obtain ⟨S, N, p0, Q, F⟩ := P
    obtain ⟨hH1, hH2⟩ := hgood _ hu
    obtain ⟨hn, hnb, hph, hpq, hqh, hsok, hS0, hsafe, hC0⟩ :=
      urlsplitM_inv _ _ _ _ _ _ hu
    have hcu : canonicalize_url u = some (String.mk
        (if endsWithSlash (urlunsplitM ⟨S, N, p0, Q, []⟩) && !(decide (p0 = ['/']))
         then rstripSlashes (urlunsplitM ⟨S, N, p0, Q, []⟩)
         else urlunsplitM ⟨S, N, p0, Q, []⟩)) := by
      unfold canonicalize_url
      rw [hu]
    rw [hcu]
    show canonicalize_url (String.mk
        (if endsWithSlash (urlunsplitM ⟨S, N, p0, Q, []⟩) && !(decide (p0 = ['/']))
         then rstripSlashes (urlunsplitM ⟨S, N, p0, Q, []⟩)
         else urlunsplitM ⟨S, N, p0, Q, []⟩)) =
      some (String.mk
        (if endsWithSlash (urlunsplitM ⟨S, N, p0, Q, []⟩) && !(decide (p0 = ['/']))
         then rstripSlashes (urlunsplitM ⟨S, N, p0, Q, []⟩)
         else urlunsplitM ⟨S, N, p0, Q, []⟩))
    have hW6 : emitsNetloc ⟨S, N, p0, Q, []⟩ = false → ¬(p0.take 2 = ['/', '/']) := by
      intro hf
      have hN0 : N = [] := emits_false_netloc _ _ _ _ _ hf
      rcases hH2 with hc | hc
      · exact absurd hN0 hc
      · exact hc
    have hsafeN : ∀ c ∈ N, isUnsafeByte c = false := fun c hc => hsafe c (Or.inl hc)
    have hsafeP : ∀ c ∈ p0, isUnsafeByte c = false :=
      fun c hc => hsafe c (Or.inr (Or.inl hc))
    have hsafeQ : ∀ c ∈ Q, isUnsafeByte c = false :=
      fun c hc => hsafe c (Or.inr (Or.inr hc))
    have hpre : preprocess (urlunsplitM ⟨S, N, p0, Q, []⟩) =
        urlunsplitM ⟨S, N, p0, Q, []⟩ :=
      unsplit_preprocess S N p0 Q hsok hsafeN hsafeP hsafeQ
        (fun hs _ hd hhd => hC0 hs hd hhd)
    have hsf : S = [] → splitScheme (urlunsplitM ⟨S, N, p0, Q, []⟩) =
        ([], urlunsplitM ⟨S, N, p0, Q, []⟩) := by
      intro hs
      by_cases he : emitsNetloc ⟨S, N, p0, Q, []⟩ = true
      · exact unsplit_schemefail S N p0 Q he hs
      · have hbody : urlunsplitM ⟨S, N, p0, Q, []⟩ =
            p0 ++ (if Q = [] then [] else '?' :: Q) := by
          rw [urlunsplit_shape, if_pos hs, List.nil_append, if_neg he]
        rcases hS0 hs with hna | ⟨t, hpref, hLS⟩
        · rw [hbody]
          exact splitScheme_fail_head _ hna
        · rw [hbody]
          apply splitScheme_fail_extend _ t
          rw [hpref]
          exact hLS
    by_cases hcnd : (endsWithSlash (urlunsplitM ⟨S, N, p0, Q, []⟩) &&
        !(decide (p0 = ['/']))) = true
    · rw [if_pos hcnd]
      rw [Bool.and_eq_true] at hcnd
      obtain ⟨hends, hnsl⟩ := hcnd
      have hp0ne : ¬(p0 = ['/']) := by
        rw [Bool.not_eq_true', decide_eq_false_iff_not] at hnsl
        exact hnsl
      by_cases hq : Q = []
      · -- empty query
        subst hq
        by_cases he : emitsNetloc ⟨S, N, p0, [], []⟩ = true
        · -- netloc marker present
          have hshape : urlunsplitM ⟨S, N, p0, [], []⟩ =
              (if S = [] then [] else S ++ [':']) ++
                ('/' :: '/' :: (N ++ pathAdj p0)) := by
            rw [urlunsplit_shape, if_pos he, if_pos (rfl : ([] : List Char) = []),
              List.append_nil]
          by_cases hPA : rstripSlashes (pathAdj p0) = []
          · -- the adjusted path is all slashes
            have hPAslash : ∀ c ∈ pathAdj p0, c = '/' := rstrip_all_slash _ hPA
            by_cases hN : N = []
            · -- γ: the fixed point is  scheme ++ ":"
              subst hN
              rw [emits_eq] at he
              simp only [List.isEmpty_nil, Bool.not_true, Bool.false_or] at he
              rw [Bool.and_eq_true, Bool.and_eq_true] at he
              obtain ⟨⟨hSne1, huse⟩, hp0dec⟩ := he
              have hSne : S ≠ [] := by
                intro hc
                rw [hc] at hSne1
                exact absurd hSne1 (by decide)
              have hp0t2 : ¬(p0.take 2 = ['/', '/']) := by
                rw [Bool.not_eq_true', decide_eq_false_iff_not] at hp0dec
                exact hp0dec
              have hp00 : p0 = [] := by
                rcases pathAdj_shape p0 with ⟨hpa1, hpa2⟩ | ⟨hpa1, hpa2⟩
                · exact hpa2
                · exfalso
                  have hp0slash : ∀ c ∈ p0, c = '/' := by
                    rcases hpa2 with hpa2 | hpa2
                    · intro c hc
                      apply hPAslash
                      rw [← hpa2] at hc
                      exact (List.drop_sublist 1 _).subset hc
                    · intro c hc
                      apply hPAslash
                      rw [hpa2]
                      exact hc
                  cases p0 with
                  | nil => cases hpa1
                  | cons a as =>
                    cases as with
                    | nil =>
                      have ha : a = '/' := hp0slash a (List.mem_cons_self _ _)
                      apply hp0ne
                      rw [ha]
                    | cons b bs =>
                      have ha : a = '/' := hp0slash a (List.mem_cons_self _ _)
                      have hb : b = '/' := hp0slash b
                        (List.mem_cons_of_mem _ (List.mem_cons_self _ _))
                      apply hp0t2
                      rw [ha, hb]
                      rfl
              subst hp00
              have hcleaneq : urlunsplitM ⟨S, ([] : List Char), ([] : List Char),
                  ([] : List Char), ([] : List Char)⟩ = (S ++ [':']) ++ ['/', '/'] := by
                rw [hshape, if_neg hSne]
                rfl
              have hstrip : rstripSlashes (urlunsplitM ⟨S, [], [], [], []⟩) =
                  S ++ [':'] := by
                rw [hcleaneq, rstripSlashes_append_slashes _ _ (by decide)]
                exact rstripSlashes_eq_self _ (by
                  rw [endsWithSlash_append _ _ (show ([':'] : List Char) ≠ [] by decide)]
                  decide)
              rw [hstrip]
              have hsokS : SchemeOK S := hsok hSne
              have hpre2 : preprocess (S ++ [':']) = S ++ [':'] := by
                apply preprocess_id
                · intro c hc
                  rcases List.mem_append.mp hc with hc | hc
                  · exact schemeChar_not_unsafe c (List.all_eq_true.mp hsokS.2.1 c hc)
                  · rcases List.mem_cons.mp hc with rfl | hc
                    · decide
                    · cases hc
                · intro hd hhd
                  rw [head_append_left _ _ hSne] at hhd
                  exact alpha_not_C0 hd (hsokS.2.2.2 hd hhd)
              have hsp2 : splitScheme (S ++ [':']) = (S, []) :=
                splitScheme_scheme S [] hsokS
              have hsplitM : urlsplitM (S ++ [':']) = some ⟨S, [], [], [], []⟩ := by
                have h1 : (splitScheme (preprocess (S ++ [':']))).1 = S := by
                  rw [hpre2, hsp2]
                have h2 : (splitScheme (preprocess (S ++ [':']))).2 = [] := by
                  rw [hpre2, hsp2]
                rw [urlsplitM_eq, h1, h2]
                rw [if_neg (show ¬((([] : List Char)).take 2 = ['/', '/']) by decide)]
                rfl
              unfold canonicalize_url
              rw [show (String.mk (S ++ [':'])).toList = S ++ [':'] from rfl]
              rw [hsplitM]
              show some (String.mk (if endsWithSlash (urlunsplitM ⟨S, ([] : List Char),
                  ([] : List Char), ([] : List Char), ([] : List Char)⟩) &&
                  !(decide (([] : List Char) = ['/']))
                then rstripSlashes (urlunsplitM ⟨S, [], [], [], []⟩)
                else urlunsplitM ⟨S, [], [], [], []⟩)) = some (String.mk (S ++ [':']))
              rw [hcleaneq]
              rw [if_pos (show (endsWithSlash ((S ++ [':']) ++ ['/', '/']) &&
                  !(decide (([] : List Char) = ['/']))) = true by
                rw [endsWithSlash_append _ _
                  (show (['/', '/'] : List Char) ≠ [] by decide)]
                decide)]
              rw [rstripSlashes_append_slashes _ _ (by decide)]
              rw [rstripSlashes_eq_self _ (by
                rw [endsWithSlash_append _ _ (show ([':'] : List Char) ≠ [] by decide)]
                decide)]
            · -- β: keep  //netloc
              have hNslash := netloc_no_slash N hn
              have hNe : endsWithSlash N = false := endsWithSlash_false_of N hNslash
              have hstrip : rstripSlashes (urlunsplitM ⟨S, N, p0, [], []⟩) =
                  ((if S = [] then [] else S ++ [':']) ++ ['/', '/']) ++ N := by
                rw [hshape]
                have hassoc : (if S = [] then [] else S ++ [':']) ++
                    ('/' :: '/' :: (N ++ pathAdj p0)) =
                    (((if S = [] then [] else S ++ [':']) ++ ['/', '/']) ++ N) ++
                      pathAdj p0 := by
                  simp [List.append_assoc]
                rw [hassoc, rstripSlashes_append_slashes _ _ hPAslash]
                exact rstripSlashes_eq_self _ (by
                  rw [endsWithSlash_append _ _ hN]
                  exact hNe)
              have he3 : emitsNetloc ⟨S, N, ([] : List Char), ([] : List Char),
                  ([] : List Char)⟩ = true := by
                rw [emits_eq]
                have hNE : N.isEmpty = false := by
                  cases N
                  · exact absurd rfl hN
                  · rfl
                rw [hNE]
                rfl
              have hceq : ((if S = [] then [] else S ++ [':']) ++ ['/', '/']) ++ N =
                  urlunsplitM ⟨S, N, [], [], []⟩ := by
                rw [urlunsplit_shape, if_pos he3]
                simp [List.append_assoc, pathAdj]
              rw [hstrip, hceq]
              apply canon_fix S N [] [] hn hnb (fun c hc => by cases hc)
                (fun c hc => by cases hc) (fun c hc => by cases hc)
                (fun hf => by rw [hf] at he3; cases he3)
                (unsplit_preprocess S N [] [] hsok hsafeN (fun c hc => by cases hc)
                  (fun c hc => by cases hc) (fun hs hf => by rw [hf] at he3; cases he3))
                (fun hs => unsplit_schemefail S N [] [] he3 hs) hsok
              left
              rw [← hceq]
              rw [endsWithSlash_append _ _ hN]
              exact hNe
          · -- α: stripped path stays nonempty
            have hPAne : pathAdj p0 ≠ [] := by
              intro hc
              rw [hc] at hPA
              exact hPA rfl
            have hPAhead : (pathAdj p0).head? = some '/' := by
              rcases pathAdj_shape p0 with ⟨hpa1, _⟩ | ⟨hpa1, _⟩
              · exact absurd hpa1 hPAne
              · exact hpa1
            have hPA'head : (rstripSlashes (pathAdj p0)).head? = some '/' := by
              rw [head_rstrip _ hPA]
              exact hPAhead
            have hPAadj : pathAdj (rstripSlashes (pathAdj p0)) =
                rstripSlashes (pathAdj p0) := pathAdj_head_slash _ hPA'head
            have hPA'mem : ∀ c ∈ rstripSlashes (pathAdj p0), c = '/' ∨ c ∈ p0 :=
              fun c hc => pathAdj_mem p0 c (mem_rstrip _ c hc)
            have hph' : ∀ c ∈ rstripSlashes (pathAdj p0), ¬(c = '#') := by
              intro c hc
              rcases hPA'mem c hc with rfl | hc2
              · decide
              · exact hph c hc2
            have hpq' : ∀ c ∈ rstripSlashes (pathAdj p0), ¬(c = '?') := by
              intro c hc
              rcases hPA'mem c hc with rfl | hc2
              · decide
              · exact hpq c hc2
            have hsafeP' : ∀ c ∈ rstripSlashes (pathAdj p0),
                isUnsafeByte c = false := by
              intro c hc
              rcases hPA'mem c hc with rfl | hc2
              · decide
              · exact hsafeP c hc2
            have he3 : emitsNetloc ⟨S, N, rstripSlashes (pathAdj p0),
                ([] : List Char), ([] : List Char)⟩ = true := by
              by_cases hN : N = []
              · rw [emits_eq] at he
                rw [hN] at he
                simp only [List.isEmpty_nil, Bool.not_true, Bool.false_or] at he
                rw [emits_eq, hN]
                simp only [List.isEmpty_nil, Bool.not_true, Bool.false_or]
                have hp0t2 : ¬(p0.take 2 = ['/', '/']) := by
                  have h3 := (Bool.and_eq_true _ _ |>.mp he).2
                  rw [Bool.not_eq_true', decide_eq_false_iff_not] at h3
                  exact h3
                have hPA't2 : ¬((rstripSlashes (pathAdj p0)).take 2 = ['/', '/']) := by
                  intro hcontra
                  obtain ⟨t2, hdec, _⟩ := rstrip_decomp (pathAdj p0)
                  have hup : (pathAdj p0).take 2 = ['/', '/'] := by
                    rw [hdec]
                    exact take_two_slashes_append _ t2 hcontra
                  exact pathAdj_take2 p0 hp0t2 hup
                simp only [decide_eq_false hPA't2, Bool.not_false, Bool.and_true]
                simp only [decide_eq_false hp0t2, Bool.not_false, Bool.and_true] at he
                exact he
              · rw [emits_eq]
                have hNE : N.isEmpty = false := by
                  cases N
                  · exact absurd rfl hN
                  · rfl
                rw [hNE]
                rfl
            have hstrip : rstripSlashes (urlunsplitM ⟨S, N, p0, [], []⟩) =
                (((if S = [] then [] else S ++ [':']) ++ ['/', '/']) ++ N) ++
                  rstripSlashes (pathAdj p0) := by
              rw [hshape]
              have hassoc : (if S = [] then [] else S ++ [':']) ++
                  ('/' :: '/' :: (N ++ pathAdj p0)) =
                  (((if S = [] then [] else S ++ [':']) ++ ['/', '/']) ++ N) ++
                    pathAdj p0 := by
                simp [List.append_assoc]
              rw [hassoc, rstripSlashes_append_of_ne _ _ hPA]
            have hceq : (((if S = [] then [] else S ++ [':']) ++ ['/', '/']) ++ N) ++
                rstripSlashes (pathAdj p0) =
                urlunsplitM ⟨S, N, rstripSlashes (pathAdj p0), [], []⟩ := by
              rw [urlunsplit_shape, if_pos he3, hPAadj]
              simp [List.append_assoc]
            rw [hstrip, hceq]
            have hnstl : endsWithSlash (urlunsplitM ⟨S, N,
                rstripSlashes (pathAdj p0), [], []⟩) = false := by
              rw [← hceq]
              rw [endsWithSlash_append _ _ hPA]
              rcases rstrip_no_trailing (pathAdj p0) with hcc | hcc
              · exact absurd hcc hPA
              · exact hcc
            exact canon_fix S N (rstripSlashes (pathAdj p0)) [] hn hnb hph' hpq'
              (fun c hc => by cases hc)
              (fun hf => by rw [hf] at he3; cases he3)
              (unsplit_preprocess S N _ [] hsok hsafeN hsafeP'
                (fun c hc => by cases hc)
                (fun hs hf => by rw [hf] at he3; cases he3))
              (fun hs => unsplit_schemefail S N _ [] he3 hs) hsok (Or.inl hnstl)
        · -- no netloc marker, empty query
          have he2 : emitsNetloc ⟨S, N, p0, ([] : List Char), ([] : List Char)⟩
              = false := by
            cases hv : emitsNetloc ⟨S, N, p0, [], []⟩
            · rfl
            · exact absurd hv he
          have hN0 : N = [] := emits_false_netloc _ _ _ _ _ he2
          subst hN0
          have hp0t2 : ¬(p0.take 2 = ['/', '/']) := hW6 he2
          have hshape2 : urlunsplitM ⟨S, [], p0, [], []⟩ =
              (if S = [] then [] else S ++ [':']) ++ p0 := by
            rw [urlunsplit_shape, if_neg he, if_pos (rfl : ([] : List Char) = []),
              List.append_nil]
          have hp0ne2 : p0 ≠ [] := by
            intro hc
            rw [hshape2, hc, List.append_nil] at hends
            by_cases hs : S = []
            · rw [if_pos hs] at hends
              exact absurd hends (by decide)
            · rw [if_neg hs, endsWithSlash_append _ _ (by decide)] at hends
              exact absurd hends (by decide)
          have hp0ends : endsWithSlash p0 = true := by
            rw [hshape2] at hends
            by_cases hs : S = []
            · rw [if_pos hs, List.nil_append] at hends
              exact hends
            · rw [if_neg hs, endsWithSlash_append _ _ hp0ne2] at hends
              exact hends
          have hp0'ne : rstripSlashes p0 ≠ [] := by
            intro hc
            have hall := rstrip_all_slash p0 hc
            cases hp0c : p0 with
            | nil => exact hp0ne2 hp0c
            | cons a as =>
              cases has : as with
              | nil =>
                have ha : a = '/' := hall a (by rw [hp0c]; exact List.mem_cons_self _ _)
                apply hp0ne
                rw [hp0c, has, ha]
              | cons b bs =>
                have ha : a = '/' := hall a (by rw [hp0c]; exact List.mem_cons_self _ _)
                have hb : b = '/' := hall b (by
                  rw [hp0c, has]
                  exact List.mem_cons_of_mem _ (List.mem_cons_self _ _))
                apply hp0t2
                rw [hp0c, has, ha, hb]
                rfl
          have hp0'head : (rstripSlashes p0).head? = p0.head? := head_rstrip _ hp0'ne
          have hp0't2 : ¬((rstripSlashes p0).take 2 = ['/', '/']) := by
            intro hcontra
            obtain ⟨t2, hdec, _⟩ := rstrip_decomp p0
            apply hp0t2
            rw [hdec]
            exact take_two_slashes_append _ t2 hcontra
          have hd1 : decide (List.take 2 p0 = ['/', '/']) = false :=
            decide_eq_false hp0t2
          have hd2 : decide (List.take 2 (rstripSlashes p0) = ['/', '/']) = false :=
            decide_eq_false hp0't2
          have he3 : emitsNetloc ⟨S, [], rstripSlashes p0, ([] : List Char),
              ([] : List Char)⟩ = false := by
            rw [emits_eq] at he2 ⊢
            simp only [List.isEmpty_nil, Bool.not_true, Bool.false_or, hd1,
              Bool.not_false, Bool.and_true] at he2
            simp only [List.isEmpty_nil, Bool.not_true, Bool.false_or, hd2,
              Bool.not_false, Bool.and_true]
            exact he2
          have hstrip : rstripSlashes (urlunsplitM ⟨S, [], p0, [], []⟩) =
              (if S = [] then [] else S ++ [':']) ++ rstripSlashes p0 := by
            rw [hshape2, rstripSlashes_append_of_ne _ _ hp0'ne]
          have hceq : (if S = [] then [] else S ++ [':']) ++ rstripSlashes p0 =
              urlunsplitM ⟨S, [], rstripSlashes p0, [], []⟩ := by
            rw [urlunsplit_shape,
              if_neg (show ¬(emitsNetloc ⟨S, ([] : List Char), rstripSlashes p0,
                ([] : List Char), ([] : List Char)⟩ = true) by rw [he3]; decide),
              if_pos (rfl : ([] : List Char) = []), List.append_nil]
          rw [hstrip, hceq]
          have hsf3 : S = [] → splitScheme (urlunsplitM ⟨S, [], rstripSlashes p0,
              [], []⟩) = ([], urlunsplitM ⟨S, [], rstripSlashes p0, [], []⟩) := by
            intro hs
            have hbody : urlunsplitM ⟨S, [], rstripSlashes p0, [], []⟩ =
                rstripSlashes p0 := by
              rw [← hceq, if_pos hs, List.nil_append]
            rw [hbody]
            rcases hS0 hs with hna | ⟨t, hpref, hLS⟩
            · apply splitScheme_fail_head
              intro hd hhd
              apply hna
              rw [if_pos (rfl : ([] : List Char) = []), List.append_nil]
              rw [hp0'head] at hhd
              exact hhd
            · obtain ⟨t2, hdec, _⟩ := rstrip_decomp p0
              apply splitScheme_fail_extend _ (t2 ++ t)
              have hxx : rstripSlashes p0 ++ (t2 ++ t) = preprocess u.toList := by
                rw [← List.append_assoc, ← hdec]
                rw [if_pos (rfl : ([] : List Char) = []), List.append_nil] at hpref
                exact hpref
              rw [hxx]
              exact hLS
          exact canon_fix S [] (rstripSlashes p0) []
            (fun c hc => by cases hc) (by decide)
            (fun c hc => hph c (mem_rstrip _ c hc))
            (fun c hc => hpq c (mem_rstrip _ c hc))
            (fun c hc => by cases hc)
            (fun _ => hp0't2)
            (unsplit_preprocess S [] _ [] hsok (fun c hc => by cases hc)
              (fun c hc => hsafeP c (mem_rstrip _ c hc)) (fun c hc => by cases hc)
              (fun hs hf hd hhd => by
                rw [if_pos (rfl : ([] : List Char) = []), List.append_nil,
                  hp0'head] at hhd
                apply hC0 hs hd
                rw [if_pos (rfl : ([] : List Char) = []), List.append_nil]
                exact hhd))
            hsf3 hsok (Or.inl (by
              rw [← hceq]
              by_cases hs : S = []
              · rw [if_pos hs, List.nil_append]
                rcases rstrip_no_trailing p0 with hcc | hcc
                · exact absurd hcc hp0'ne
                · exact hcc
              · rw [if_neg hs, endsWithSlash_append _ _ hp0'ne]
                rcases rstrip_no_trailing p0 with hcc | hcc
                · exact absurd hcc hp0'ne
                · exact hcc))
      · -- nonempty query
        have hex : ∃ c ∈ Q, ¬(c = '/') := by
          rcases hH1 with hc | hc
          · rcases hc with hc | hc
            · exact absurd hc hq
            · exact hc
          · exact absurd hc hp0ne
        have hQ'ne : rstripSlashes Q ≠ [] := by
          intro hcon
          obtain ⟨cw, hcw, hcwne⟩ := hex
          exact hcwne (rstrip_all_slash Q hcon cw hcw)
        have hqq' : rstripSlashes ('?' :: Q) = '?' :: rstripSlashes Q := by
          rw [show ('?' :: Q : List Char) = ['?'] ++ Q from rfl,
            rstripSlashes_append_of_ne _ _ hQ'ne]
          rfl
        have hQ's : ∀ c ∈ rstripSlashes Q, c ∈ Q := fun c hc => mem_rstrip _ c hc
        have hshape3 : urlunsplitM ⟨S, N, p0, Q, []⟩ =
            ((if S = [] then [] else S ++ [':']) ++
              (if emitsNetloc ⟨S, N, p0, Q, []⟩ then '/' :: '/' :: (N ++ pathAdj p0)
               else p0)) ++ ('?' :: Q) := by
          rw [urlunsplit_shape, if_neg hq]
          simp [List.append_assoc]
        have hstrip : rstripSlashes (urlunsplitM ⟨S, N, p0, Q, []⟩) =
            ((if S = [] then [] else S ++ [':']) ++
              (if emitsNetloc ⟨S, N, p0, Q, []⟩ then '/' :: '/' :: (N ++ pathAdj p0)
               else p0)) ++ ('?' :: rstripSlashes Q) := by
          rw [hshape3, rstripSlashes_append_of_ne _ _ (by
            rw [hqq']
            exact List.cons_ne_nil _ _), hqq']
        have hee : emitsNetloc ⟨S, N, p0, rstripSlashes Q, ([] : List Char)⟩ =
            emitsNetloc ⟨S, N, p0, Q, []⟩ := rfl
        have hceq : ((if S = [] then [] else S ++ [':']) ++
              (if emitsNetloc ⟨S, N, p0, Q, []⟩ then '/' :: '/' :: (N ++ pathAdj p0)
               else p0)) ++ ('?' :: rstripSlashes Q) =
            urlunsplitM ⟨S, N, p0, rstripSlashes Q, []⟩ := by
          rw [urlunsplit_shape, if_neg hQ'ne, hee]
          simp [List.append_assoc]
        rw [hstrip, hceq]
        have hpre3 : preprocess (urlunsplitM ⟨S, N, p0, rstripSlashes Q, []⟩) =
            urlunsplitM ⟨S, N, p0, rstripSlashes Q, []⟩ :=
          unsplit_preprocess S N p0 _ hsok hsafeN hsafeP
            (fun c hc => hsafeQ c (hQ's c hc))
            (fun hs hf hd hhd => by
              rw [if_neg hQ'ne] at hhd
              apply hC0 hs hd
              rw [if_neg hq]
              cases p0 with
              | nil =>
                rw [List.nil_append] at hhd ⊢
                rw [List.head?_cons] at hhd ⊢
                exact hhd
              | cons a as =>
                rw [List.cons_append, List.head?_cons] at hhd ⊢
                exact hhd)
        have hsf3 : S = [] → splitScheme (urlunsplitM ⟨S, N, p0,
            rstripSlashes Q, []⟩) =
            ([], urlunsplitM ⟨S, N, p0, rstripSlashes Q, []⟩) := by
          intro hs
          by_cases he : emitsNetloc ⟨S, N, p0, Q, []⟩ = true
          · exact unsplit_schemefail S N p0 _ (by rw [hee]; exact he) hs
          · have hbody : urlunsplitM ⟨S, N, p0, rstripSlashes Q, []⟩ =
                p0 ++ ('?' :: rstripSlashes Q) := by
              rw [urlunsplit_shape, if_pos hs, List.nil_append, hee, if_neg he,
                if_neg hQ'ne]
            rw [hbody]
            rcases hS0 hs with hna | ⟨t, hpref, hLS⟩
            · apply splitScheme_fail_head
              intro hd hhd
              apply hna hd
              rw [if_neg hq]
              cases p0 with
              | nil =>
                rw [List.nil_append] at hhd ⊢
                exact hhd
              | cons a as =>
                rw [List.cons_append, List.head?_cons] at hhd ⊢
                exact hhd
            · obtain ⟨t2, hdec, _⟩ := rstrip_decomp Q
              apply splitScheme_fail_extend _ (t2 ++ t)
              have hxx : (p0 ++ ('?' :: rstripSlashes Q)) ++ (t2 ++ t) =
                  preprocess u.toList := by
                rw [if_neg hq] at hpref
                rw [← hpref]
                conv_rhs => rw [hdec]
                simp [List.append_assoc]
              rw [hxx]
              exact hLS
        have hnstl : endsWithSlash (urlunsplitM ⟨S, N, p0,
            rstripSlashes Q, []⟩) = false := by
          rw [← hceq, endsWithSlash_append _ _ (List.cons_ne_nil _ _)]
          rw [show ('?' :: rstripSlashes Q : List Char) =
            ['?'] ++ rstripSlashes Q from rfl, endsWithSlash_append _ _ hQ'ne]
          rcases rstrip_no_trailing Q with hcc | hcc
          · exact absurd hcc hQ'ne
          · exact hcc
        exact canon_fix S N p0 (rstripSlashes Q) hn hnb hph hpq
          (fun c hc => hqh c (hQ's c hc))
          (fun hf => hW6 hf)
          hpre3 hsf3 hsok (Or.inl hnstl)
    · rw [if_neg hcnd]
      have hnstrue : (endsWithSlash (urlunsplitM ⟨S, N, p0, Q, []⟩) &&
          !(decide (p0 = ['/']))) = false := by
        cases hv : (endsWithSlash (urlunsplitM ⟨S, N, p0, Q, []⟩) &&
            !(decide (p0 = ['/'])))
        · rfl
        · exact absurd hv hcnd
      have hns : endsWithSlash (urlunsplitM ⟨S, N, p0, Q, []⟩) = false ∨
          (if emitsNetloc ⟨S, N, p0, Q, []⟩ then pathAdj p0 else p0) = ['/'] := by
        cases hv : endsWithSlash (urlunsplitM ⟨S, N, p0, Q, []⟩)
        · exact Or.inl rfl
        · right
          rw [hv, Bool.true_and] at hnstrue
          have hp0 : p0 = ['/'] := by
            have h2 : decide (p0 = ['/']) = true := by
              cases hd : decide (p0 = ['/'])
              · rw [hd] at hnstrue
                exact absurd hnstrue (by decide)
              · rfl
            exact of_decide_eq_true h2
          rw [hp0]
          by_cases he : emitsNetloc ⟨S, N, ['/'], Q, []⟩ = true
          · rw [if_pos he]
            decide
          · rw [if_neg he]
      exact canon_fix S N p0 Q hn hnb hph hpq hqh hW6 hpre hsf hsok hns

/-- Witness: the idempotence theorem applied to a concrete URL with a
bracketed IPv6 host whose trailing path slash is stripped on the first
pass. -/
theorem canonicalize_url_idempotent_witness :
    (canonicalize_url "http://[::1]/a/").bind canonicalize_url =
      canonicalize_url "http://[::1]/a/" :=
  canonicalize_url_idempotent "http://[::1]/a/" (by
    intro P hP
    have hx : urlsplitM "http://[::1]/a/".toList =
        some (⟨"http".toList, "[::1]".toList, "/a/".toList, [], []⟩ : SplitParts) := by
      decide
    rw [hx, Option.some.injEq] at hP
    subst hP
    decide)

end AutoParts
